import Mathlib

/-!
# LevelDB filter blocks and the built-in Bloom filter policy

A shallow embedding of `util/bloom.cc` and `table/filter_block.cc`.

* A byte is a `Fin 256`; a `std::string` / `Slice` is a `List Byte`.
* `size_t` arithmetic is arithmetic on `Nat` reduced `% 2^64`, `uint32_t`
  arithmetic is reduced `% 2^32`.
* A `while`/`for` loop is a structurally recursive function on the number of
  iterations that remain (or on fuel that is shown to suffice).
* A read outside a buffer and a failed `assert` are `none`.
-/

namespace LevelDB

/-! ## Bytes and fixed-width coding -/

/-- One `char` of a `std::string`, as its unsigned value. -/
abbrev Byte := Fin 256

/-- Conversion `static_cast<char>(n)`: the low eight bits of `n`. -/
def Byte.ofNat (n : Nat) : Byte := ⟨n % 256, Nat.mod_lt n (by decide)⟩

/-- A `Slice` (pointer and length) is the byte string it denotes. -/
abbrev Slice := List Byte

/-- Modelled from the spec: `EncodeFixed32` of `util/coding.h`, which is not
part of the sources at hand; the four bytes it writes for a `uint32_t`, least
significant byte first ("4-byte little-endian"). -/
def EncodeFixed32 (value : Nat) : List Byte :=
  [Byte.ofNat value, Byte.ofNat (value / 2 ^ 8),
   Byte.ofNat (value / 2 ^ 16), Byte.ofNat (value / 2 ^ 24)]

/-- Modelled from the spec: `PutFixed32` of `util/coding.h`, which is not part
of the sources at hand; it appends the encoding of a `uint32_t` to `dst`. -/
def PutFixed32 (dst : List Byte) (value : Nat) : List Byte :=
  dst ++ EncodeFixed32 value

/-- Modelled from the spec: `DecodeFixed32` of `util/coding.h`, which is not
part of the sources at hand; it reads four bytes at position `pos` of `data`
as a little-endian `uint32_t`.  The result is `none` when one of the four
bytes lies outside `data`. -/
def DecodeFixed32 (data : List Byte) (pos : Nat) : Option Nat :=
  match data[pos]?, data[pos + 1]?, data[pos + 2]?, data[pos + 3]? with
  | some b0, some b1, some b2, some b3 =>
      some (b0.val + b1.val * 2 ^ 8 + b2.val * 2 ^ 16 + b3.val * 2 ^ 24)
  | _, _, _, _ => none

/-! ## The filter policy interface -/

/-- The two virtual methods of `FilterPolicy` that the filter block uses.
`CreateFilter keys dst` is the new contents of `*dst`; the C++ argument `n` is
the length of `keys`. -/
structure FilterPolicy where
  CreateFilter : List Slice → List Byte → List Byte
  KeyMayMatch : Slice → List Byte → Bool

/-! ## util/bloom.cc -/

/-- State of a `BloomFilterPolicy`: the two `size_t` members, and the function
`Hash(data, n, seed)` of `util/hash.h`, whose definition is not part of the
sources at hand and is therefore a parameter (its `uint32_t` result is taken
`% 2^32` where it is used). -/
structure BloomFilterPolicy where
  Hash : List Byte → Nat → Nat
  bits_per_key_ : Nat
  k_ : Nat

/-- The helper `BloomHash(key) = Hash(key.data(), key.size(), 0xbc9f1d34)`. -/
def BloomHash (Hash : List Byte → Nat → Nat) (key : Slice) : Nat :=
  Hash key 0xbc9f1d34 % 2 ^ 32

/-- The constructor `BloomFilterPolicy(int bits_per_key)` for a non-negative
argument.  `k_ = static_cast<size_t>(bits_per_key * 0.69)` is computed in
binary64; the truncated product equals `bits_per_key * 69 / 100` for every
`bits_per_key ≤ 43` (the product is not within rounding distance of an
integer there), and for `bits_per_key ≥ 44` both values are at least 30 and
are clamped to 30 by the next two statements. -/
def BloomFilterPolicy.new (Hash : List Byte → Nat → Nat) (bits_per_key : Nat) :
    BloomFilterPolicy :=
  let k0 := bits_per_key * 69 / 100
  let k1 := if k0 < 1 then 1 else k0
  let k2 := if k1 > 30 then 30 else k1
  { Hash := Hash, bits_per_key_ := bits_per_key, k_ := k2 }

/-- The statement `array[bitpos / 8] |= (1 << (bitpos % 8))` where `array`
starts at position `init_size` of `dst`. -/
def setBit (dst : List Byte) (init_size bitpos : Nat) : List Byte :=
  let i := init_size + bitpos / 8
  dst.set i (Byte.ofNat ((dst.getD i 0).val ||| (1 <<< (bitpos % 8))))

/-- The inner loop `for (size_t j = 0; j < k_; j++)` of `CreateFilter`; the
first argument is the number of iterations that remain. -/
def CreateFilter.probes (bits init_size delta : Nat) :
    Nat → Nat → List Byte → List Byte
  | 0, _, dst => dst
  | j + 1, h, dst =>
      let bitpos := h % bits
      CreateFilter.probes bits init_size delta j ((h + delta) % 2 ^ 32)
        (setBit dst init_size bitpos)

/-- The rotation `(h >> 17) | (h << 15)` on `uint32_t`. -/
def rotateDelta (h : Nat) : Nat := ((h >>> 17) ||| (h <<< 15)) % 2 ^ 32

/-- The outer loop `for (int i = 0; i < n; i++)` of `CreateFilter`. -/
def CreateFilter.keysLoop (p : BloomFilterPolicy) (bits init_size : Nat) :
    List Slice → List Byte → List Byte
  | [], dst => dst
  | key :: keys, dst =>
      let h := BloomHash p.Hash key
      let delta := rotateDelta h
      CreateFilter.keysLoop p bits init_size keys
        (CreateFilter.probes bits init_size delta p.k_ h dst)

/-- `BloomFilterPolicy::CreateFilter(keys, n, dst)` with `n = keys.length`. -/
def BloomFilterPolicy.CreateFilter (p : BloomFilterPolicy) (keys : List Slice)
    (dst : List Byte) : List Byte :=
  let n := keys.length
  let bits0 := (n * p.bits_per_key_) % 2 ^ 64
  let bits1 := if bits0 < 64 then 64 else bits0
  let bytes := ((bits1 + 7) % 2 ^ 64) / 8
  let bits := bytes * 8
  let init_size := dst.length
  let dst1 := dst ++ List.replicate bytes (0 : Byte)
  let dst2 := dst1 ++ [Byte.ofNat p.k_]
  CreateFilter.keysLoop p bits init_size keys dst2

/-- The loop `for (size_t j = 0; j < k; j++)` of `KeyMayMatch`; the first
argument is the number of iterations that remain. -/
def KeyMayMatch.probes (array : List Byte) (bits delta : Nat) : Nat → Nat → Bool
  | 0, _ => true
  | j + 1, h =>
      let bitpos := h % bits
      if (array.getD (bitpos / 8) 0).val &&& (1 <<< (bitpos % 8)) = 0 then false
      else KeyMayMatch.probes array bits delta j ((h + delta) % 2 ^ 32)

/-- `BloomFilterPolicy::KeyMayMatch(key, bloom_filter)`. -/
def BloomFilterPolicy.KeyMayMatch (p : BloomFilterPolicy) (key : Slice)
    (bloom_filter : List Byte) : Bool :=
  let len := bloom_filter.length
  if len < 2 then false
  else
    let bits := (len - 1) * 8
    let k := (bloom_filter.getD (len - 1) 0).val
    if k > 30 then true
    else
      let h := BloomHash p.Hash key
      let delta := rotateDelta h
      KeyMayMatch.probes bloom_filter bits delta k h

/-- A `BloomFilterPolicy` seen through the `FilterPolicy` interface. -/
def BloomFilterPolicy.toFilterPolicy (p : BloomFilterPolicy) : FilterPolicy :=
  { CreateFilter := p.CreateFilter, KeyMayMatch := p.KeyMayMatch }

/-- `NewBloomFilterPolicy(bits_per_key)`. -/
def NewBloomFilterPolicy (Hash : List Byte → Nat → Nat) (bits_per_key : Nat) :
    FilterPolicy :=
  (BloomFilterPolicy.new Hash bits_per_key).toFilterPolicy

/-! ## table/filter_block.cc: the builder -/

/-- Constant `kFilterBaseLg`: a new filter every 2KB of data. -/
def kFilterBaseLg : Nat := 11

/-- Constant `kFilterBase = 1 << kFilterBaseLg`. -/
def kFilterBase : Nat := 1 <<< kFilterBaseLg

/-- Members of `FilterBlockBuilder`.  `keys_` is the flattened key contents,
`start_` the starting index in `keys_` of each key, `result_` the filter data
computed so far, `tmp_keys_` the argument list of `CreateFilter`, and
`filter_offsets_` a `std::vector<uint32_t>`. -/
structure FilterBlockBuilder where
  policy_ : FilterPolicy
  keys_ : List Byte
  start_ : List Nat
  result_ : List Byte
  tmp_keys_ : List Slice
  filter_offsets_ : List Nat

/-- The constructor `FilterBlockBuilder(policy)`. -/
def FilterBlockBuilder.new (policy : FilterPolicy) : FilterBlockBuilder :=
  { policy_ := policy, keys_ := [], start_ := [], result_ := [],
    tmp_keys_ := [], filter_offsets_ := [] }

/-- `FilterBlockBuilder::AddKey(key)`. -/
def FilterBlockBuilder.AddKey (b : FilterBlockBuilder) (key : Slice) :
    FilterBlockBuilder :=
  { b with start_ := b.start_ ++ [b.keys_.length], keys_ := b.keys_ ++ key }

/-- The loop of `GenerateFilter` that fills `tmp_keys_`: entry `i` is the
slice of `keys_` from `start_[i]` of length `start_[i + 1] - start_[i]`. -/
def FilterBlockBuilder.makeTmpKeys (keys : List Byte) (start : List Nat)
    (num_keys : Nat) : List Slice :=
  (List.range num_keys).map fun i =>
    (keys.drop (start.getD i 0)).take (start.getD (i + 1) 0 - start.getD i 0)

/-- `FilterBlockBuilder::GenerateFilter()`.  The argument
`static_cast<int>(num_keys)` of `CreateFilter` is the length of the key list
(exact while fewer than `2^31` keys are pending). -/
def FilterBlockBuilder.GenerateFilter (b : FilterBlockBuilder) :
    FilterBlockBuilder :=
  let num_keys := b.start_.length
  if num_keys = 0 then
    { b with filter_offsets_ := b.filter_offsets_ ++ [b.result_.length % 2 ^ 32] }
  else
    let start := b.start_ ++ [b.keys_.length]
    let tmp_keys := FilterBlockBuilder.makeTmpKeys b.keys_ start num_keys
    { b with
      filter_offsets_ := b.filter_offsets_ ++ [b.result_.length % 2 ^ 32]
      result_ := b.policy_.CreateFilter tmp_keys b.result_
      tmp_keys_ := []
      keys_ := []
      start_ := [] }

/-- The loop `while (filter_index > filter_offsets_.size()) GenerateFilter();`
of `StartBlock`, with fuel as first argument. -/
def FilterBlockBuilder.StartBlock.loop (filter_index : Nat) :
    Nat → FilterBlockBuilder → FilterBlockBuilder
  | 0, b => b
  | fuel + 1, b =>
      if filter_index > b.filter_offsets_.length then
        FilterBlockBuilder.StartBlock.loop filter_index fuel b.GenerateFilter
      else b

/-- `FilterBlockBuilder::StartBlock(block_offset)`.  The result is `none` when
`assert(filter_index >= filter_offsets_.size())` fails.  Every iteration of the
loop adds one entry to `filter_offsets_`, so `filter_index` iterations are
never exceeded. -/
def FilterBlockBuilder.StartBlock (b : FilterBlockBuilder) (block_offset : Nat) :
    Option FilterBlockBuilder :=
  let filter_index := block_offset / kFilterBase
  if filter_index < b.filter_offsets_.length then none
  else some (FilterBlockBuilder.StartBlock.loop filter_index filter_index b)

/-- First statement of `Finish`: `if (!start_.empty()) GenerateFilter();`. -/
def FilterBlockBuilder.flush (b : FilterBlockBuilder) : FilterBlockBuilder :=
  if b.start_.isEmpty then b else b.GenerateFilter

/-- The loop of `Finish` that appends the array of per-filter offsets. -/
def FilterBlockBuilder.putOffsets : List Byte → List Nat → List Byte
  | result, [] => result
  | result, o :: os => FilterBlockBuilder.putOffsets (PutFixed32 result o) os

/-- `FilterBlockBuilder::Finish()`: the returned `Slice(result_)`. -/
def FilterBlockBuilder.Finish (b : FilterBlockBuilder) : Slice :=
  let b1 := b.flush
  let array_offset := b1.result_.length % 2 ^ 32
  let r1 := FilterBlockBuilder.putOffsets b1.result_ b1.filter_offsets_
  let r2 := PutFixed32 r1 array_offset
  r2 ++ [Byte.ofNat kFilterBaseLg]

/-! ## table/filter_block.cc: the reader -/

/-- Members of `FilterBlockReader`.  The pointer `data_` is the byte string it
points into (empty for `nullptr`), the pointer `offset_` is the position
`offset_ - data_` in that string. -/
structure FilterBlockReader where
  policy_ : FilterPolicy
  data_ : List Byte
  offset_ : Nat
  num_ : Nat
  base_lg_ : Nat

/-- The conversion of a `char` to `size_t` in `base_lg_ = contents[n - 1]`,
with `char` a signed 8-bit type: a byte of 128 or more is the negative value
`b - 256`, which converts to `2 ^ 64 + (b - 256)`.  (Where `char` is unsigned
the result is `b` itself; the two differ by a multiple of 64, so the shift
count modulo 64 used by `KeyMayMatch` is the same.) -/
def charToSize (b : Byte) : Nat :=
  if b.val < 128 then b.val else 2 ^ 64 - 256 + b.val

/-- The constructor `FilterBlockReader(policy, contents)`.  `none` stands for a
read outside `contents`. -/
def FilterBlockReader.new (policy : FilterPolicy) (contents : Slice) :
    Option FilterBlockReader :=
  let r0 : FilterBlockReader :=
    { policy_ := policy, data_ := [], offset_ := 0, num_ := 0, base_lg_ := 0 }
  let n := contents.length
  if n < 5 then some r0
  else
    match contents[n - 1]?, DecodeFixed32 contents (n - 5) with
    | some lg, some last_word =>
        let r1 := { r0 with base_lg_ := charToSize lg }
        if last_word > n - 5 then some r1
        else
          some { r1 with data_ := contents, offset_ := last_word,
                         num_ := (n - 5 - last_word) / 4 }
    | _, _ => none

/-- The expression `Slice(data_ + start, limit - start)`; `none` when the slice
does not lie inside `data`. -/
def subSlice (data : List Byte) (start limit : Nat) : Option Slice :=
  if limit ≤ data.length then some ((data.drop start).take (limit - start))
  else none

/-- The body of `FilterBlockReader::KeyMayMatch` from `if (index < num_)` on,
for the value `index` of the shift.  `none` stands for a read outside `data_`. -/
def FilterBlockReader.KeyMayMatch.lookup (r : FilterBlockReader) (index : Nat)
    (key : Slice) : Option Bool :=
  if index < r.num_ then
    match DecodeFixed32 r.data_ (r.offset_ + index * 4),
          DecodeFixed32 r.data_ (r.offset_ + index * 4 + 4) with
    | some start, some limit =>
        if start ≤ limit ∧ limit ≤ r.offset_ then
          match subSlice r.data_ start limit with
          | some filter => some (r.policy_.KeyMayMatch key filter)
          | none => none
        else if start = limit then some false
        else some true
    | _, _ => none
  else some true

/-- `FilterBlockReader::KeyMayMatch(block_offset, key)`.  `none` stands for a
read outside `data_`.  C++ defines the shift `block_offset >> base_lg_` of a
`uint64_t` for a count below 64 only; for a larger count the compiled code
executes a shift instruction that takes the count modulo 64 (x86-64, AArch64),
and the embedding does the same. -/
def FilterBlockReader.KeyMayMatch (r : FilterBlockReader) (block_offset : Nat)
    (key : Slice) : Option Bool :=
  let index := block_offset >>> (r.base_lg_ % 64)
  FilterBlockReader.KeyMayMatch.lookup r index key

/-! ## Runs of a builder -/

/-- One call of the table builder on a `FilterBlockBuilder`. -/
inductive Call where
  | StartBlock (block_offset : Nat)
  | AddKey (key : Slice)
  deriving DecidableEq

/-- One call applied to a builder. -/
def FilterBlockBuilder.step (b : FilterBlockBuilder) : Call → Option FilterBlockBuilder
  | Call.StartBlock block_offset => b.StartBlock block_offset
  | Call.AddKey key => some (b.AddKey key)

/-- A sequence of calls applied to a builder, first call first. -/
def FilterBlockBuilder.run (b : FilterBlockBuilder) : List Call → Option FilterBlockBuilder
  | [] => some b
  | c :: cs =>
      match b.step c with
      | some b1 => FilterBlockBuilder.run b1 cs
      | none => none

/-- The bytes `Finish` returns after the calls `cs` on a fresh builder. -/
def buildBlock (policy : FilterPolicy) (cs : List Call) : Option Slice :=
  match (FilterBlockBuilder.new policy).run cs with
  | some b => some b.Finish
  | none => none

/-- A reader built from `contents` and asked about `key` at `block_offset`. -/
def readBlock (policy : FilterPolicy) (contents : Slice) (block_offset : Nat)
    (key : Slice) : Option Bool :=
  match FilterBlockReader.new policy contents with
  | some r => r.KeyMayMatch block_offset key
  | none => none

/-! ## Notions used in the statements -/

/-- Bit `pos` of a bit array stored least significant bit first. -/
def bitSet (array : List Byte) (pos : Nat) : Prop :=
  (array.getD (pos / 8) 0).val.testBit (pos % 8) = true

/-- Number of bytes of the bit array `CreateFilter` allocates for `n` keys. -/
def BloomFilterPolicy.arrayBytes (p : BloomFilterPolicy) (n : Nat) : Nat :=
  let bits0 := (n * p.bits_per_key_) % 2 ^ 64
  let bits1 := if bits0 < 64 then 64 else bits0
  ((bits1 + 7) % 2 ^ 64) / 8

/-- The bit array of the filter for `keys`: the loops of `CreateFilter` run on
a zeroed array that starts at position 0. -/
def BloomFilterPolicy.bitArray (p : BloomFilterPolicy) (keys : List Slice) : List Byte :=
  CreateFilter.keysLoop p (p.arrayBytes keys.length * 8) 0 keys
    (List.replicate (p.arrayBytes keys.length) 0)

/-- The value of `h` at the start of iteration `j` of a probe loop. -/
def probeHash (h delta : Nat) : Nat → Nat
  | 0 => h
  | j + 1 => probeHash ((h + delta) % 2 ^ 32) delta j


/-- A stand-in for `Hash` on which the definitions can be evaluated. -/
def sampleHash : List Byte → Nat → Nat := fun data seed => 31 * data.length + seed

/-- A policy that knows no key: used where the policy is arbitrary. -/
def rejectAll : FilterPolicy :=
  { CreateFilter := fun _ dst => dst, KeyMayMatch := fun _ _ => false }

/-- The filter the builder appends for the pending keys `ks`: nothing when no
key is pending, else what `CreateFilter` appends. -/
def filterOf (P : FilterPolicy) (ks : List Slice) : List Byte :=
  if ks.isEmpty then [] else P.CreateFilter ks []

/-- Entries of `filter_offsets_` for filters laid out one after the other from
position `base`. -/
def offsetsFrom : Nat → List (List Byte) → List Nat
  | _, [] => []
  | base, f :: fs => base % 2 ^ 32 :: offsetsFrom (base + f.length) fs

/-- Entries of `start_` for keys laid out one after the other from position
`base`. -/
def startsFrom : Nat → List Slice → List Nat
  | _, [] => []
  | base, k :: ks => base :: startsFrom (base + k.length) ks

/-- A policy appends to the buffer and leaves the bytes before alone. -/
def AppendOnly (P : FilterPolicy) : Prop :=
  ∀ keys dst, P.CreateFilter keys dst = dst ++ P.CreateFilter keys []

/-- The builder state `b` holds the filters for the key lists `fs` and has the
keys `pending` waiting for the next filter. -/
def Rep (P : FilterPolicy) (b : FilterBlockBuilder) (fs : List (List Slice))
    (pending : List Slice) : Prop :=
  b.policy_ = P ∧ b.keys_ = pending.flatten ∧ b.start_ = startsFrom 0 pending ∧
    b.result_ = (fs.map (filterOf P)).flatten ∧
    b.filter_offsets_ = offsetsFrom 0 (fs.map (filterOf P))


/-- The offset of the block under construction after the calls `cs`, where
`cur` is that offset before them. -/
def lastOffset : Nat → List Call → Nat
  | cur, [] => cur
  | _, Call.StartBlock block_offset :: cs => lastOffset block_offset cs
  | cur, Call.AddKey _ :: cs => lastOffset cur cs

/-- The keys added by the calls `cs`, each with the offset of the block it was
added to; `cur` is the offset of the block under construction at the start. -/
def blockKeys : Nat → List Call → List (Nat × Slice)
  | _, [] => []
  | _, Call.StartBlock block_offset :: cs => blockKeys block_offset cs
  | cur, Call.AddKey key :: cs => (cur, key) :: blockKeys cur cs

/-- The keys added during blocks whose offset maps to partition `i`, in the
order of the calls. -/
def partitionKeys (cs : List Call) (i : Nat) : List Slice :=
  ((blockKeys 0 cs).filter fun e => e.1 / kFilterBase = i).map Prod.snd

/-- The offsets of the `StartBlock` calls of `cs` never decrease, and none is
below `cur`. -/
def nonDecreasing : Nat → List Call → Prop
  | _, [] => True
  | cur, Call.StartBlock block_offset :: cs => cur ≤ block_offset ∧ nonDecreasing block_offset cs
  | cur, Call.AddKey _ :: cs => nonDecreasing cur cs

/-- A run begins with `StartBlock`. -/
def beginsWithStartBlock : List Call → Prop
  | Call.StartBlock _ :: _ => True
  | _ => False

/-- A valid run of the builder: it begins with `StartBlock` and its block
offsets never decrease. -/
def ValidRun (cs : List Call) : Prop := beginsWithStartBlock cs ∧ nonDecreasing 0 cs

instance (cur : Nat) (cs : List Call) : Decidable (nonDecreasing cur cs) := by
  induction cs generalizing cur with
  | nil => exact isTrue trivial
  | cons c cs ih =>
      cases c with
      | StartBlock block_offset =>
          exact @instDecidableAnd _ _ (Nat.decLe cur block_offset) (ih block_offset)
      | AddKey key => exact ih cur

instance (cs : List Call) : Decidable (beginsWithStartBlock cs) := by
  cases cs with
  | nil => exact isFalse (fun h => h)
  | cons c cs =>
      cases c with
      | StartBlock block_offset => exact isTrue trivial
      | AddKey key => exact isFalse (fun h => h)

instance (cs : List Call) : Decidable (ValidRun cs) := by
  unfold ValidRun; infer_instance


/-- Number of filters after `Finish`: one per partition up to that of the last
block, which counts only if it received a key. -/
def numFilters (cs : List Call) : Nat :=
  if (partitionKeys cs (lastOffset 0 cs / kFilterBase)).isEmpty
  then lastOffset 0 cs / kFilterBase
  else lastOffset 0 cs / kFilterBase + 1

/-- The filters a run generates, in generation order: filter `i` is made from
the keys of partition `i`. -/
def filtersOf (P : FilterPolicy) (cs : List Call) : List (List Byte) :=
  (List.range (numFilters cs)).map fun i => filterOf P (partitionKeys cs i)

/-- The filter data of a run: its filters one after the other. -/
def filterData (P : FilterPolicy) (cs : List Call) : List Byte :=
  (filtersOf P cs).flatten

/-- The words of the offset array: the offset of every filter, then the array
offset. -/
def offsetWords (filters : List (List Byte)) : List Nat :=
  offsetsFrom 0 filters ++ [filters.flatten.length % 2 ^ 32]

/-- The block made of the filters `filters`, their offsets and the trailer. -/
def blockOf (filters : List (List Byte)) : List Byte :=
  filters.flatten ++ (offsetWords filters).flatMap EncodeFixed32 ++ [Byte.ofNat kFilterBaseLg]


/-- A hash function that sends every key to 64. -/
def wideHash : List Byte → Nat → Nat := fun _ _ => 64

/-- Twenty-four copies of the empty key. -/
def wideKeys : List Slice := List.replicate 24 []

/-- A run that adds the empty key 24 times to the block at offset 0. -/
def wideRun : List Call := Call.StartBlock 0 :: List.replicate 24 (Call.AddKey [])

/-- The wide run followed by a block two partitions further on. -/
def wideRunSkip : List Call := wideRun ++ [Call.StartBlock 4096]


/-- A Bloom policy with ten bits per key on which runs can be evaluated. -/
def samplePolicy : FilterPolicy := NewBloomFilterPolicy sampleHash 10

/-- A run with two keys in partition 0, no key in partition 1 and one key in
partition 2. -/
def sampleRun : List Call :=
  [Call.StartBlock 0, Call.AddKey [1], Call.AddKey [2, 3], Call.StartBlock 5000,
   Call.AddKey [4]]

/-- The bit positions `h % bits` of the iterations of a probe loop, in
order; the first argument is the number of iterations. -/
def probePositions (bits delta : Nat) : Nat → Nat → List Nat
  | 0, _ => []
  | j + 1, h => h % bits :: probePositions bits delta j ((h + delta) % 2 ^ 32)

/-- The bit positions `CreateFilter` writes, in order: for every key, those of
its probe loop. -/
def CreateFilter.positions (p : BloomFilterPolicy) (bits : Nat) (keys : List Slice) :
    List Nat :=
  keys.flatMap fun key =>
    probePositions bits (rotateDelta (BloomHash p.Hash key)) p.k_ (BloomHash p.Hash key)


/-- A policy whose filter is the concatenation of the keys and which matches
exactly the key equal to the whole filter. -/
def exactPolicy : FilterPolicy :=
  { CreateFilter := fun keys dst => dst ++ keys.flatten,
    KeyMayMatch := fun key filter => decide (filter = key) }

/-! ## The Bloom filter: auxiliary facts -/

theorem and_one_shiftLeft_eq_zero (x m : Nat) :
    x &&& (1 <<< m) = 0 ↔ x.testBit m = false := by
  rw [Nat.one_shiftLeft, Nat.and_two_pow]
  cases h : x.testBit m <;> simp [Nat.pos_iff_ne_zero.mp (Nat.two_pow_pos m)]

theorem Byte.ofNat_val (n : Nat) : (Byte.ofNat n).val = n % 256 := rfl

theorem Byte.ofNat_val_of_lt {n : Nat} (h : n < 256) : (Byte.ofNat n).val = n := by
  rw [Byte.ofNat_val, Nat.mod_eq_of_lt h]

theorem Byte.or_bit_val (b : Byte) {m : Nat} (hm : m < 8) :
    (Byte.ofNat (b.val ||| (1 <<< m))).val = b.val ||| 2 ^ m := by
  rw [Nat.one_shiftLeft]
  apply Byte.ofNat_val_of_lt
  have h1 : b.val < 2 ^ 8 := b.isLt
  have h2 : 2 ^ m < 2 ^ 8 := Nat.pow_lt_pow_right (by decide) hm
  exact Nat.or_lt_two_pow h1 h2

theorem length_setBit (dst : List Byte) (init_size bitpos : Nat) :
    (setBit dst init_size bitpos).length = dst.length := by
  simp [setBit]

theorem setBit_frame (dst l : List Byte) (bitpos : Nat) :
    setBit (dst ++ l) dst.length bitpos = dst ++ setBit l 0 bitpos := by
  simp [setBit, List.set_append, List.getD_eq_getElem?_getD, List.getElem?_append_right]

theorem probes_frame (bits delta : Nat) (dst : List Byte) :
    ∀ (j h : Nat) (l : List Byte),
      CreateFilter.probes bits dst.length delta j h (dst ++ l)
        = dst ++ CreateFilter.probes bits 0 delta j h l := by
  intro j
  induction j with
  | zero => intro h l; rfl
  | succ j ih =>
      intro h l
      simp only [CreateFilter.probes]
      rw [setBit_frame, ih]

theorem keysLoop_frame (p : BloomFilterPolicy) (bits : Nat) (dst : List Byte) :
    ∀ (keys : List Slice) (l : List Byte),
      CreateFilter.keysLoop p bits dst.length keys (dst ++ l)
        = dst ++ CreateFilter.keysLoop p bits 0 keys l := by
  intro keys
  induction keys with
  | nil => intro l; rfl
  | cons key keys ih =>
      intro l
      simp only [CreateFilter.keysLoop]
      rw [probes_frame, ih]

theorem CreateFilter_frame (p : BloomFilterPolicy) (keys : List Slice) (dst : List Byte) :
    p.CreateFilter keys dst = dst ++ p.CreateFilter keys [] := by
  simp only [BloomFilterPolicy.CreateFilter, List.append_assoc, List.nil_append, List.length_nil]
  rw [keysLoop_frame]

theorem length_probes (bits init delta : Nat) :
    ∀ (j h : Nat) (l : List Byte),
      (CreateFilter.probes bits init delta j h l).length = l.length := by
  intro j
  induction j with
  | zero => intro h l; rfl
  | succ j ih => intro h l; simp only [CreateFilter.probes]; rw [ih, length_setBit]

theorem length_keysLoop (p : BloomFilterPolicy) (bits init : Nat) :
    ∀ (keys : List Slice) (l : List Byte),
      (CreateFilter.keysLoop p bits init keys l).length = l.length := by
  intro keys
  induction keys with
  | nil => intro l; rfl
  | cons key keys ih => intro l; simp only [CreateFilter.keysLoop]; rw [ih, length_probes]

/-- Writing a bit inside the first part of `l ++ tl` leaves `tl` alone. -/
theorem setBit_append_left (l tl : List Byte) (bitpos : Nat) (h : bitpos / 8 < l.length) :
    setBit (l ++ tl) 0 bitpos = setBit l 0 bitpos ++ tl := by
  simp [setBit, List.set_append, List.getD_eq_getElem?_getD, List.getElem?_append_left, h]

theorem probes_append_left {bits : Nat} (delta : Nat) (tl : List Byte) :
    ∀ (j h : Nat) (l : List Byte), 0 < bits → bits ≤ 8 * l.length →
      CreateFilter.probes bits 0 delta j h (l ++ tl)
        = CreateFilter.probes bits 0 delta j h l ++ tl := by
  intro j
  induction j with
  | zero => intro h l _ _; rfl
  | succ j ih =>
      intro h l hb hl
      simp only [CreateFilter.probes]
      have hlt : h % bits < bits := Nat.mod_lt _ hb
      rw [setBit_append_left _ _ _ (by omega), ih _ _ hb (by rw [length_setBit]; exact hl)]

theorem keysLoop_append_left (p : BloomFilterPolicy) (bits : Nat) (tl : List Byte) :
    ∀ (keys : List Slice) (l : List Byte), 0 < bits → bits ≤ 8 * l.length →
      CreateFilter.keysLoop p bits 0 keys (l ++ tl)
        = CreateFilter.keysLoop p bits 0 keys l ++ tl := by
  intro keys
  induction keys with
  | nil => intro l _ _; rfl
  | cons key keys ih =>
      intro l hb hl
      simp only [CreateFilter.keysLoop]
      rw [probes_append_left _ _ _ _ _ hb hl, ih _ hb (by rw [length_probes]; exact hl)]

theorem length_bitArray (p : BloomFilterPolicy) (keys : List Slice) :
    (p.bitArray keys).length = p.arrayBytes keys.length := by
  simp [BloomFilterPolicy.bitArray, length_keysLoop]

/-- Shape of the output of `CreateFilter` when the bit array is not empty. -/
theorem CreateFilter_eq (p : BloomFilterPolicy) (keys : List Slice) (dst : List Byte)
    (h : 0 < p.arrayBytes keys.length) :
    p.CreateFilter keys dst = dst ++ (p.bitArray keys ++ [Byte.ofNat p.k_]) := by
  rw [CreateFilter_frame]
  congr 1
  simp only [BloomFilterPolicy.CreateFilter, List.nil_append, List.length_nil]
  exact keysLoop_append_left p (p.arrayBytes keys.length * 8) [Byte.ofNat p.k_] keys
    (List.replicate (p.arrayBytes keys.length) 0) (by omega) (by simp; omega)

theorem arrayBytes_eq (p : BloomFilterPolicy) (n : Nat)
    (hn : n < 2 ^ 31) (hb : p.bits_per_key_ < 2 ^ 31) :
    p.arrayBytes n = (max 64 (n * p.bits_per_key_) + 7) / 8 := by
  have h1 : n * p.bits_per_key_ < 2 ^ 31 * 2 ^ 31 := by
    rcases Nat.eq_zero_or_pos n with h0 | h0
    · subst h0; simp
    · calc n * p.bits_per_key_ < n * 2 ^ 31 := Nat.mul_lt_mul_of_pos_left hb h0
        _ ≤ 2 ^ 31 * 2 ^ 31 := Nat.mul_le_mul_right _ (le_of_lt hn)
  simp only [BloomFilterPolicy.arrayBytes]
  have h2 : n * p.bits_per_key_ % 2 ^ 64 = n * p.bits_per_key_ :=
    Nat.mod_eq_of_lt (by norm_num at h1 ⊢; omega)
  rw [h2]
  split
  · rw [max_eq_left (by omega)]; rfl
  · rw [max_eq_right (by omega), Nat.mod_eq_of_lt (by norm_num at h1 ⊢; omega)]

theorem arrayBytes_pos (p : BloomFilterPolicy) (n : Nat)
    (hn : n < 2 ^ 31) (hb : p.bits_per_key_ < 2 ^ 31) : 8 ≤ p.arrayBytes n := by
  rw [arrayBytes_eq p n hn hb]
  have : 64 ≤ max 64 (n * p.bits_per_key_) := le_max_left _ _
  omega

theorem new_k_bounds (Hash : List Byte → Nat → Nat) (bits_per_key : Nat) :
    1 ≤ (BloomFilterPolicy.new Hash bits_per_key).k_ ∧
      (BloomFilterPolicy.new Hash bits_per_key).k_ ≤ 30 := by
  simp only [BloomFilterPolicy.new]
  split <;> split <;> omega

theorem getD_setBit (l : List Byte) (pos j : Nat) :
    ((setBit l 0 pos).getD j 0).val =
      if j = pos / 8 ∧ j < l.length then (l.getD j 0).val ||| 2 ^ (pos % 8)
      else (l.getD j 0).val := by
  simp only [setBit, Nat.zero_add, List.getD_eq_getElem?_getD, List.getElem?_set]
  by_cases h1 : pos / 8 = j
  · subst h1
    by_cases h2 : pos / 8 < l.length
    · simp only [h2, and_self, if_true, Option.getD_some]
      exact Byte.or_bit_val _ (Nat.mod_lt _ (by decide))
    · have h4 : l[pos / 8]? = none := List.getElem?_eq_none (by omega)
      simp [h2, h4]
  · have h3 : ¬ j = pos / 8 := fun h => h1 h.symm
    simp [h1, h3]

theorem bitSet_setBit_self (l : List Byte) (pos : Nat) (h : pos / 8 < l.length) :
    bitSet (setBit l 0 pos) pos := by
  unfold bitSet
  rw [getD_setBit, if_pos ⟨rfl, h⟩, Nat.testBit_or, Nat.testBit_two_pow]
  simp

theorem bitSet_setBit_mono (l : List Byte) (pos q : Nat) (h : bitSet l q) :
    bitSet (setBit l 0 pos) q := by
  unfold bitSet at h ⊢
  rw [getD_setBit]
  split
  · rw [Nat.testBit_or, h]; rfl
  · exact h

theorem bitSet_probes_mono (bits delta q : Nat) :
    ∀ (j h : Nat) (l : List Byte), bitSet l q →
      bitSet (CreateFilter.probes bits 0 delta j h l) q := by
  intro j
  induction j with
  | zero => intro h l hq; exact hq
  | succ j ih =>
      intro h l hq
      simp only [CreateFilter.probes]
      exact ih _ _ (bitSet_setBit_mono _ _ _ hq)

theorem bitSet_keysLoop_mono (p : BloomFilterPolicy) (bits q : Nat) :
    ∀ (keys : List Slice) (l : List Byte), bitSet l q →
      bitSet (CreateFilter.keysLoop p bits 0 keys l) q := by
  intro keys
  induction keys with
  | nil => intro l hq; exact hq
  | cons key keys ih =>
      intro l hq
      simp only [CreateFilter.keysLoop]
      exact ih _ (bitSet_probes_mono _ _ _ _ _ _ hq)

/-- The probe loop of `KeyMayMatch` succeeds exactly when every probed bit is
set. -/
theorem KeyMayMatch_probes_iff (array : List Byte) (bits delta : Nat) :
    ∀ (k h : Nat), KeyMayMatch.probes array bits delta k h = true ↔
      ∀ j, j < k → bitSet array (probeHash h delta j % bits) := by
  intro k
  induction k with
  | zero => intro h; simp [KeyMayMatch.probes]
  | succ k ih =>
      intro h
      simp only [KeyMayMatch.probes]
      constructor
      · intro hm j hj
        split at hm
        · exact absurd hm (by simp)
        · rename_i hbit
          rw [and_one_shiftLeft_eq_zero] at hbit
          cases j with
          | zero => simpa [probeHash, bitSet] using hbit
          | succ j => exact (ih _).mp hm j (by omega)
      · intro hall
        have h0 := hall 0 (by omega)
        simp only [probeHash, bitSet] at h0
        rw [if_neg (by rw [and_one_shiftLeft_eq_zero, h0]; simp)]
        exact (ih _).mpr (fun j hj => hall (j + 1) (by omega))

/-- After the probe loop of `CreateFilter`, every bit it probed is set. -/
theorem bitSet_probes_self {bits : Nat} (delta : Nat) (hb : 0 < bits) :
    ∀ (k h : Nat) (l : List Byte), bits ≤ 8 * l.length → ∀ j, j < k →
      bitSet (CreateFilter.probes bits 0 delta k h l) (probeHash h delta j % bits) := by
  intro k
  induction k with
  | zero => intro h l _ j hj; omega
  | succ k ih =>
      intro h l hl j hj
      simp only [CreateFilter.probes]
      cases j with
      | zero =>
          apply bitSet_probes_mono
          have : h % bits < bits := Nat.mod_lt _ hb
          exact bitSet_setBit_self _ _ (by omega)
      | succ j =>
          exact ih _ _ (by rw [length_setBit]; exact hl) j (by omega)

theorem bitSet_keysLoop_self (p : BloomFilterPolicy) {bits : Nat} (hb : 0 < bits) :
    ∀ (keys : List Slice) (l : List Byte), bits ≤ 8 * l.length →
      ∀ key ∈ keys, ∀ j, j < p.k_ →
        bitSet (CreateFilter.keysLoop p bits 0 keys l)
          (probeHash (BloomHash p.Hash key) (rotateDelta (BloomHash p.Hash key)) j % bits) := by
  intro keys
  induction keys with
  | nil => intro l _ key hk; cases hk
  | cons key0 keys ih =>
      intro l hl key hk j hj
      simp only [CreateFilter.keysLoop]
      rcases List.mem_cons.mp hk with rfl | hk
      · apply bitSet_keysLoop_mono
        exact bitSet_probes_self _ hb _ _ _ hl j hj
      · exact ih _ (by rw [length_probes]; exact hl) key hk j hj

theorem bitSet_append_left (l tl : List Byte) (q : Nat) (h : q / 8 < l.length) :
    bitSet (l ++ tl) q ↔ bitSet l q := by
  unfold bitSet
  rw [List.getD_append _ _ _ _ h]

/-- Core of the absence of false negatives: on a filter made of the bit array
for `keys` and a probe count `kb ≤ 30`, `KeyMayMatch` accepts every key of
`keys`, provided `kb` does not exceed the number of probes that were set. -/
theorem KeyMayMatch_of_mem (p q : BloomFilterPolicy) (keys : List Slice) (key : Slice)
    (hq : q.Hash = p.Hash)
    (hbytes : 0 < p.arrayBytes keys.length) (hk : p.k_ ≤ 30) (hmem : key ∈ keys) :
    q.KeyMayMatch key (p.bitArray keys ++ [Byte.ofNat p.k_]) = true := by
  have hlen := length_bitArray p keys
  simp only [BloomFilterPolicy.KeyMayMatch, List.length_append, List.length_singleton, hlen,
    Nat.add_sub_cancel]
  rw [if_neg (by omega)]
  have hkb : ((p.bitArray keys ++ [Byte.ofNat p.k_]).getD (p.arrayBytes keys.length) 0).val
      = p.k_ := by
    rw [List.getD_eq_getElem?_getD, List.getElem?_append_right (by omega), hlen]
    simp [Byte.ofNat_val]
    omega
  rw [hkb, if_neg (by omega), KeyMayMatch_probes_iff, hq]
  intro j hj
  have hpos : 0 < p.arrayBytes keys.length * 8 := by omega
  have hlt := Nat.mod_lt (probeHash (BloomHash p.Hash key) (rotateDelta (BloomHash p.Hash key)) j) hpos
  rw [bitSet_append_left _ _ _ (by rw [hlen]; omega)]
  exact bitSet_keysLoop_self p hpos keys _ (by simp; omega) key hmem j hj

theorem ceil_div_eight (m : Nat) : ⌈(m : ℚ) / 8⌉₊ = (m + 7) / 8 := by
  apply le_antisymm
  · rw [Nat.ceil_le, div_le_iff₀ (by norm_num)]
    have : m ≤ (m + 7) / 8 * 8 := by omega
    exact_mod_cast this
  · by_contra hlt
    push_neg at hlt
    have h1 : ⌈(m : ℚ) / 8⌉₊ + 1 ≤ (m + 7) / 8 := hlt
    have h2 : (m : ℚ) / 8 ≤ ⌈(m : ℚ) / 8⌉₊ := Nat.le_ceil _
    rw [div_le_iff₀ (by norm_num)] at h2
    have h3 : m ≤ ⌈(m : ℚ) / 8⌉₊ * 8 := by exact_mod_cast h2
    omega

theorem CreateFilter_nil (p : BloomFilterPolicy) :
    p.CreateFilter [] [] = List.replicate 8 0 ++ [Byte.ofNat p.k_] := by
  simp [BloomFilterPolicy.CreateFilter, CreateFilter.keysLoop]

theorem not_bitSet_replicate (n q : Nat) (tl : List Byte) (h : q / 8 < n) :
    ¬ bitSet (List.replicate n 0 ++ tl) q := by
  unfold bitSet
  rw [List.getD_append _ _ _ _ (by simpa using h), List.getD_eq_getElem?_getD,
    List.getElem?_replicate, if_pos h]
  simp


/-! ## The reader: auxiliary facts -/

theorem getElem?_isSome (data : List Byte) (pos : Nat) (h : pos < data.length) :
    ∃ b, data[pos]? = some b := by
  cases hb : data[pos]? with
  | none => rw [List.getElem?_eq_none_iff] at hb; omega
  | some b => exact ⟨b, rfl⟩

theorem DecodeFixed32_isSome (data : List Byte) (pos : Nat) (h : pos + 4 ≤ data.length) :
    ∃ v, DecodeFixed32 data pos = some v ∧ v < 2 ^ 32 := by
  obtain ⟨b0, h0⟩ := getElem?_isSome data pos (by omega)
  obtain ⟨b1, h1⟩ := getElem?_isSome data (pos + 1) (by omega)
  obtain ⟨b2, h2⟩ := getElem?_isSome data (pos + 2) (by omega)
  obtain ⟨b3, h3⟩ := getElem?_isSome data (pos + 3) (by omega)
  refine ⟨b0.val + b1.val * 2 ^ 8 + b2.val * 2 ^ 16 + b3.val * 2 ^ 24, ?_, ?_⟩
  · simp only [DecodeFixed32, h0, h1, h2, h3]
  · have := b0.isLt
    have := b1.isLt
    have := b2.isLt
    have := b3.isLt
    omega

/-- What the constructor of the reader leaves behind, by cases on the region. -/
theorem FilterBlockReader.new_cases (policy : FilterPolicy) (contents : Slice) :
    (contents.length < 5 ∧ FilterBlockReader.new policy contents =
        some { policy_ := policy, data_ := [], offset_ := 0, num_ := 0, base_lg_ := 0 }) ∨
    (5 ≤ contents.length ∧ ∃ lg w, contents[contents.length - 1]? = some lg ∧
      DecodeFixed32 contents (contents.length - 5) = some w ∧
      ((contents.length - 5 < w ∧ FilterBlockReader.new policy contents =
          some { policy_ := policy, data_ := [], offset_ := 0, num_ := 0, base_lg_ := charToSize lg }) ∨
       (w ≤ contents.length - 5 ∧ FilterBlockReader.new policy contents =
          some { policy_ := policy, data_ := contents, offset_ := w,
                 num_ := (contents.length - 5 - w) / 4, base_lg_ := charToSize lg }))) := by
  by_cases hn : contents.length < 5
  · left; exact ⟨hn, by simp [FilterBlockReader.new, hn]⟩
  · right
    refine ⟨by omega, ?_⟩
    obtain ⟨w, hw, _⟩ := DecodeFixed32_isSome contents (contents.length - 5) (by omega)
    obtain ⟨lg, hlg⟩ := getElem?_isSome contents (contents.length - 1) (by omega)
    refine ⟨lg, w, hlg, hw, ?_⟩
    by_cases hgt : contents.length - 5 < w
    · left; exact ⟨hgt, by simp [FilterBlockReader.new, hn, hlg, hw, hgt]⟩
    · right; exact ⟨by omega, by simp [FilterBlockReader.new, hn, hlg, hw, hgt]⟩

/-- The two offset entries of every partition the reader recognises lie inside
the region. -/
theorem FilterBlockReader.entries_in_bounds (policy : FilterPolicy) (contents : Slice)
    (r : FilterBlockReader) (hnew : FilterBlockReader.new policy contents = some r)
    (index : Nat) (hidx : index < r.num_) :
    r.data_ = contents ∧ r.offset_ + index * 4 + 8 ≤ contents.length ∧
      r.offset_ + 4 * r.num_ + 5 ≤ contents.length := by
  rcases FilterBlockReader.new_cases policy contents with ⟨_, h⟩ | ⟨h5, lg, w, _, hw, hc⟩
  · rw [h] at hnew; cases hnew; simp at hidx
  · rcases hc with ⟨_, h⟩ | ⟨hle, h⟩
    · rw [h] at hnew; cases hnew; simp at hidx
    · rw [h] at hnew; cases hnew
      simp only at hidx ⊢
      refine ⟨trivial, ?_, ?_⟩ <;> omega


/-! ## The builder: auxiliary facts -/

theorem length_startsFrom (base : Nat) (ks : List Slice) :
    (startsFrom base ks).length = ks.length := by
  induction ks generalizing base with
  | nil => rfl
  | cons k ks ih => simp [startsFrom, ih]

theorem length_offsetsFrom (base : Nat) (fl : List (List Byte)) :
    (offsetsFrom base fl).length = fl.length := by
  induction fl generalizing base with
  | nil => rfl
  | cons f fl ih => simp [offsetsFrom, ih]

theorem startsFrom_append (base : Nat) (ks : List Slice) (k : Slice) :
    startsFrom base (ks ++ [k]) = startsFrom base ks ++ [base + ks.flatten.length] := by
  induction ks generalizing base with
  | nil => simp [startsFrom]
  | cons k0 ks ih => simp [startsFrom, ih, Nat.add_assoc]

theorem offsetsFrom_append (base : Nat) (fl : List (List Byte)) (f : List Byte) :
    offsetsFrom base (fl ++ [f]) =
      offsetsFrom base fl ++ [(base + fl.flatten.length) % 2 ^ 32] := by
  induction fl generalizing base with
  | nil => simp [offsetsFrom]
  | cons f0 fl ih => simp [offsetsFrom, ih, Nat.add_assoc]

/-- Entry `i` of `start_`, once the end position has been pushed, is the
length of the first `i` keys. -/
theorem startsFrom_getD (base : Nat) (ks : List Slice) (i : Nat) (hi : i ≤ ks.length) :
    (startsFrom base ks ++ [base + ks.flatten.length]).getD i 0
      = base + (ks.take i).flatten.length := by
  induction ks generalizing base i with
  | nil =>
      have : i = 0 := by simpa using hi
      subst this
      simp [startsFrom]
  | cons k ks ih =>
      cases i with
      | zero => simp [startsFrom]
      | succ i =>
          have hi2 : i ≤ ks.length := by simpa using hi
          have := ih (base + k.length) i hi2
          simp only [startsFrom, List.cons_append, List.getD_cons_succ, List.take_succ_cons,
            List.flatten_cons, List.length_append] at this ⊢
          rw [Nat.add_assoc] at this
          rw [Nat.add_assoc] at this
          exact this

/-- The slices `GenerateFilter` cuts out of `keys_` are the pending keys. -/
theorem makeTmpKeys_eq (ks : List Slice) :
    FilterBlockBuilder.makeTmpKeys ks.flatten
      (startsFrom 0 ks ++ [ks.flatten.length]) ks.length = ks := by
  apply List.ext_getElem?
  intro i
  by_cases hi : i < ks.length
  · have h1 := startsFrom_getD 0 ks i (by omega)
    have h2 := startsFrom_getD 0 ks (i + 1) (by omega)
    simp only [Nat.zero_add] at h1 h2
    simp only [FilterBlockBuilder.makeTmpKeys, List.getElem?_map, List.getElem?_range hi,
      Option.map_some', h1, h2]
    rw [List.getElem?_eq_getElem hi]
    congr 1
    have h3 : (ks.take (i + 1)).flatten = (ks.take i).flatten ++ ks[i] := by
      rw [List.take_succ, List.getElem?_eq_getElem hi]
      simp only [Option.toList, List.flatten_append, List.flatten_cons, List.flatten_nil,
        List.append_nil]
    have h4 : ks.flatten = (ks.take i).flatten ++ (ks[i] ++ (ks.drop (i + 1)).flatten) := by
      conv_lhs => rw [← List.take_append_drop i ks, List.drop_eq_getElem_cons hi]
      simp only [List.flatten_append, List.flatten_cons]
    rw [h3, List.length_append, Nat.add_sub_cancel_left, h4, List.drop_left,
      List.take_left]
  · have h1 : ks[i]? = none := List.getElem?_eq_none (by omega)
    rw [h1, List.getElem?_eq_none]
    simp [FilterBlockBuilder.makeTmpKeys]
    omega

theorem Rep.new (P : FilterPolicy) : Rep P (FilterBlockBuilder.new P) [] [] := by
  simp [Rep, FilterBlockBuilder.new, startsFrom, offsetsFrom]

theorem Rep.AddKey {P : FilterPolicy} {b : FilterBlockBuilder} {fs : List (List Slice)}
    {pending : List Slice} (h : Rep P b fs pending) (key : Slice) :
    Rep P (b.AddKey key) fs (pending ++ [key]) := by
  obtain ⟨hp, hk, hs, hr, ho⟩ := h
  refine ⟨hp, ?_, ?_, hr, ho⟩
  · simp [FilterBlockBuilder.AddKey, hk]
  · simp [FilterBlockBuilder.AddKey, hk, hs, startsFrom_append]

theorem Rep.GenerateFilter {P : FilterPolicy} (hP : AppendOnly P) {b : FilterBlockBuilder}
    {fs : List (List Slice)} {pending : List Slice} (h : Rep P b fs pending) :
    Rep P b.GenerateFilter (fs ++ [pending]) [] := by
  obtain ⟨hp, hk, hs, hr, ho⟩ := h
  have hlen : b.start_.length = pending.length := by rw [hs, length_startsFrom]
  have hoff : b.filter_offsets_ ++ [b.result_.length % 2 ^ 32]
      = offsetsFrom 0 ((fs ++ [pending]).map (filterOf P)) := by
    rw [List.map_append, List.map_singleton, offsetsFrom_append, ho, hr, Nat.zero_add]
  unfold FilterBlockBuilder.GenerateFilter
  by_cases h0 : b.start_.length = 0
  · have hnil : pending = [] := List.length_eq_zero.mp (by omega)
    subst hnil
    simp only [h0, if_true]
    refine ⟨hp, hk, hs, ?_, hoff⟩
    simp [hr, filterOf]
  · have hne : pending ≠ [] := fun hnil => h0 (by rw [hlen, hnil]; rfl)
    simp only [h0, if_false]
    refine ⟨hp, rfl, rfl, ?_, hoff⟩
    simp only [hs, hk, length_startsFrom, makeTmpKeys_eq, hp]
    rw [hP pending, hr]
    have : filterOf P pending = P.CreateFilter pending [] := by
      cases pending with
      | nil => exact absurd rfl hne
      | cons k ks => rfl
    simp [this]

theorem lastOffset_append_StartBlock (cur : Nat) (cs : List Call) (off : Nat) :
    lastOffset cur (cs ++ [Call.StartBlock off]) = off := by
  induction cs generalizing cur with
  | nil => rfl
  | cons c cs ih => cases c <;> simp [lastOffset, ih]

theorem lastOffset_append_AddKey (cur : Nat) (cs : List Call) (key : Slice) :
    lastOffset cur (cs ++ [Call.AddKey key]) = lastOffset cur cs := by
  induction cs generalizing cur with
  | nil => rfl
  | cons c cs ih => cases c <;> simp [lastOffset, ih]

theorem blockKeys_append_StartBlock (cur : Nat) (cs : List Call) (off : Nat) :
    blockKeys cur (cs ++ [Call.StartBlock off]) = blockKeys cur cs := by
  induction cs generalizing cur with
  | nil => rfl
  | cons c cs ih => cases c <;> simp [blockKeys, ih]

theorem blockKeys_append_AddKey (cur : Nat) (cs : List Call) (key : Slice) :
    blockKeys cur (cs ++ [Call.AddKey key]) = blockKeys cur cs ++ [(lastOffset cur cs, key)] := by
  induction cs generalizing cur with
  | nil => rfl
  | cons c cs ih => cases c <;> simp [blockKeys, lastOffset, ih]

theorem nonDecreasing_append_StartBlock (cur : Nat) (cs : List Call) (off : Nat) :
    nonDecreasing cur (cs ++ [Call.StartBlock off]) ↔
      nonDecreasing cur cs ∧ lastOffset cur cs ≤ off := by
  induction cs generalizing cur with
  | nil => simp [nonDecreasing, lastOffset]
  | cons c cs ih => cases c <;> simp [nonDecreasing, lastOffset, ih, and_assoc]

theorem nonDecreasing_append_AddKey (cur : Nat) (cs : List Call) (key : Slice) :
    nonDecreasing cur (cs ++ [Call.AddKey key]) ↔ nonDecreasing cur cs := by
  induction cs generalizing cur with
  | nil => simp [nonDecreasing]
  | cons c cs ih => cases c <;> simp [nonDecreasing, ih]

theorem blockKeys_le_lastOffset (cur : Nat) (cs : List Call) (h : nonDecreasing cur cs) :
    cur ≤ lastOffset cur cs ∧ ∀ e ∈ blockKeys cur cs, e.1 ≤ lastOffset cur cs := by
  induction cs generalizing cur with
  | nil => simp [lastOffset, blockKeys]
  | cons c cs ih =>
      cases c with
      | StartBlock off =>
          obtain ⟨h1, h2⟩ := h
          obtain ⟨h3, h4⟩ := ih off h2
          exact ⟨le_trans h1 h3, h4⟩
      | AddKey key =>
          obtain ⟨h3, h4⟩ := ih cur h
          refine ⟨h3, ?_⟩
          intro e he
          rcases List.mem_cons.mp he with rfl | he
          · exact h3
          · exact h4 e he

/-- No key belongs to a partition beyond that of the last block. -/
theorem partitionKeys_eq_nil (cs : List Call) (h : nonDecreasing 0 cs) (i : Nat)
    (hi : lastOffset 0 cs / kFilterBase < i) : partitionKeys cs i = [] := by
  unfold partitionKeys
  rw [List.map_eq_nil_iff, List.filter_eq_nil_iff]
  intro e he
  have := (blockKeys_le_lastOffset 0 cs h).2 e he
  have h2 : e.1 / kFilterBase ≤ lastOffset 0 cs / kFilterBase := Nat.div_le_div_right this
  simp only [decide_eq_true_eq]
  omega

theorem partitionKeys_append_StartBlock (cs : List Call) (off i : Nat) :
    partitionKeys (cs ++ [Call.StartBlock off]) i = partitionKeys cs i := by
  simp [partitionKeys, blockKeys_append_StartBlock]

theorem partitionKeys_append_AddKey (cs : List Call) (key : Slice) (i : Nat) :
    partitionKeys (cs ++ [Call.AddKey key]) i =
      if lastOffset 0 cs / kFilterBase = i then partitionKeys cs i ++ [key]
      else partitionKeys cs i := by
  simp only [partitionKeys, blockKeys_append_AddKey, List.filter_append, List.map_append]
  by_cases h : lastOffset 0 cs / kFilterBase = i <;> simp [List.filter, h]

theorem run_append (b : FilterBlockBuilder) (cs : List Call) (c : Call) :
    b.run (cs ++ [c]) = (b.run cs).bind fun b1 => b1.step c := by
  induction cs generalizing b with
  | nil => simp only [List.nil_append, FilterBlockBuilder.run, Option.some_bind]; cases b.step c <;> rfl
  | cons c0 cs ih =>
      simp only [List.cons_append, FilterBlockBuilder.run]
      cases b.step c0 with
      | none => rfl
      | some b1 => exact ih b1

theorem map_range_split {α : Type} (f : Nat → α) (d : α) (p q : Nat) (hpq : p < q)
    (hd : ∀ i, p < i → f i = d) :
    (List.range q).map f = (List.range p).map f ++ f p :: List.replicate (q - p - 1) d := by
  obtain ⟨m, rfl⟩ : ∃ m, q = p + 1 + m := ⟨q - p - 1, by omega⟩
  have e : p + 1 + m - p - 1 = m := by omega
  rw [e]
  clear e hpq
  induction m with
  | zero => simp [List.range_succ]
  | succ m ih =>
      rw [show p + 1 + (m + 1) = (p + 1 + m) + 1 by omega, List.range_succ, List.map_append,
        ih, List.replicate_succ', List.map_singleton, hd (p + 1 + m) (by omega)]
      simp

theorem Rep.length_offsets {P : FilterPolicy} {b : FilterBlockBuilder} {fs : List (List Slice)}
    {pending : List Slice} (h : Rep P b fs pending) : b.filter_offsets_.length = fs.length := by
  rw [h.2.2.2.2, length_offsetsFrom, List.length_map]

/-- The catch-up loop of `StartBlock` generates the filter of the pending keys
and then empty filters, until `filter_index` filters exist. -/
theorem Rep.loop {P : FilterPolicy} (hP : AppendOnly P) (filter_index : Nat) :
    ∀ (fuel : Nat) (b : FilterBlockBuilder) (fs : List (List Slice)) (pending : List Slice),
      Rep P b fs pending → fs.length < filter_index → filter_index - fs.length ≤ fuel →
      Rep P (FilterBlockBuilder.StartBlock.loop filter_index fuel b)
        (fs ++ pending :: List.replicate (filter_index - fs.length - 1) []) [] := by
  intro fuel
  induction fuel with
  | zero => intro b fs pending _ h1 h2; omega
  | succ fuel ih =>
      intro b fs pending h h1 h2
      have hlen := h.length_offsets
      simp only [FilterBlockBuilder.StartBlock.loop]
      rw [if_pos (by omega)]
      have hg := h.GenerateFilter hP
      by_cases h3 : fs.length + 1 < filter_index
      · have := ih b.GenerateFilter (fs ++ [pending]) [] hg (by simpa using h3)
          (by simp; omega)
        have e : filter_index - fs.length - 1 = (filter_index - (fs.length + 1) - 1) + 1 := by
          omega
        rw [e, List.replicate_succ]
        simpa [List.append_assoc] using this
      · have e : filter_index - fs.length - 1 = 0 := by omega
        rw [e]
        have hstop : FilterBlockBuilder.StartBlock.loop filter_index fuel b.GenerateFilter
            = b.GenerateFilter := by
          cases fuel with
          | zero => rfl
          | succ fuel =>
              simp only [FilterBlockBuilder.StartBlock.loop]
              rw [if_neg (by rw [hg.length_offsets]; simp; omega)]
        rw [hstop]
        simpa using hg

theorem loop_eq_self (filter_index fuel : Nat) (b : FilterBlockBuilder)
    (h : filter_index ≤ b.filter_offsets_.length) :
    FilterBlockBuilder.StartBlock.loop filter_index fuel b = b := by
  cases fuel with
  | zero => rfl
  | succ fuel => simp only [FilterBlockBuilder.StartBlock.loop]; rw [if_neg (by omega)]

/-- The state of the builder after a run whose block offsets never decrease:
filter `i` has been generated from the keys of partition `i`, for every `i`
below the partition of the current block, and the keys of that partition are
pending. -/
theorem run_spec {P : FilterPolicy} (hP : AppendOnly P) (cs : List Call)
    (h : nonDecreasing 0 cs) :
    ∃ b, (FilterBlockBuilder.new P).run cs = some b ∧
      Rep P b ((List.range (lastOffset 0 cs / kFilterBase)).map (partitionKeys cs))
        (partitionKeys cs (lastOffset 0 cs / kFilterBase)) := by
  induction cs using List.reverseRecOn with
  | nil =>
      refine ⟨_, rfl, ?_⟩
      have : lastOffset 0 [] / kFilterBase = 0 := by simp [lastOffset]
      rw [this]
      exact Rep.new P
  | append_singleton cs c ih =>
      cases c with
      | AddKey key =>
          rw [nonDecreasing_append_AddKey] at h
          obtain ⟨b, hb, hrep⟩ := ih h
          refine ⟨b.AddKey key, by rw [run_append, hb]; rfl, ?_⟩
          have := hrep.AddKey key
          rw [lastOffset_append_AddKey, partitionKeys_append_AddKey, if_pos rfl]
          convert this using 1
          apply List.map_congr_left
          intro i hi
          rw [partitionKeys_append_AddKey, if_neg]
          have := List.mem_range.mp hi
          omega
      | StartBlock off =>
          rw [nonDecreasing_append_StartBlock] at h
          obtain ⟨hnd, hle⟩ := h
          obtain ⟨b, hb, hrep⟩ := ih hnd
          have hlen := hrep.length_offsets
          simp only [List.length_map, List.length_range] at hlen
          have hdiv : lastOffset 0 cs / kFilterBase ≤ off / kFilterBase :=
            Nat.div_le_div_right hle
          have hpk : ∀ i, partitionKeys (cs ++ [Call.StartBlock off]) i = partitionKeys cs i :=
            partitionKeys_append_StartBlock cs off
          rw [lastOffset_append_StartBlock]
          simp only [hpk]
          have hfun : partitionKeys (cs ++ [Call.StartBlock off]) = partitionKeys cs :=
            funext hpk
          rw [hfun]
          refine ⟨FilterBlockBuilder.StartBlock.loop (off / kFilterBase) (off / kFilterBase) b,
            ?_, ?_⟩
          · rw [run_append, hb]
            simp only [Option.some_bind, FilterBlockBuilder.step, FilterBlockBuilder.StartBlock]
            rw [if_neg (by omega)]
          · rcases Nat.lt_or_ge (lastOffset 0 cs / kFilterBase) (off / kFilterBase) with hlt | hge
            · have := Rep.loop hP (off / kFilterBase) (off / kFilterBase) b _ _ hrep
                (by simpa using hlt) (by simp)
              rw [partitionKeys_eq_nil cs hnd _ hlt,
                map_range_split (partitionKeys cs) [] _ _ hlt
                  (fun i hi => partitionKeys_eq_nil cs hnd i hi)]
              simpa only [List.length_map, List.length_range] using this
            · have e : off / kFilterBase = lastOffset 0 cs / kFilterBase := by omega
              rw [e, loop_eq_self _ _ _ (by omega)]
              exact hrep

/-! ## The block a run builds and its reader: auxiliary facts -/

theorem length_filtersOf (P : FilterPolicy) (cs : List Call) :
    (filtersOf P cs).length = numFilters cs := by
  simp [filtersOf]

theorem putOffsets_eq (result : List Byte) (offsets : List Nat) :
    FilterBlockBuilder.putOffsets result offsets = result ++ offsets.flatMap EncodeFixed32 := by
  induction offsets generalizing result with
  | nil => simp [FilterBlockBuilder.putOffsets]
  | cons o os ih => simp [FilterBlockBuilder.putOffsets, ih, PutFixed32]

theorem Rep.flush {P : FilterPolicy} (hP : AppendOnly P) {b : FilterBlockBuilder}
    {fs : List (List Slice)} {pending : List Slice} (h : Rep P b fs pending) :
    Rep P b.flush (if pending.isEmpty then fs else fs ++ [pending]) [] := by
  have hlen : b.start_.length = pending.length := by rw [h.2.2.1, length_startsFrom]
  unfold FilterBlockBuilder.flush
  cases pending with
  | nil =>
      have : b.start_ = [] := List.length_eq_zero.mp hlen
      simpa [this] using h
  | cons k ks =>
      have : b.start_.isEmpty = false := by
        cases hs : b.start_ with
        | nil => rw [hs] at hlen; simp at hlen
        | cons _ _ => rfl
      simpa [this] using h.GenerateFilter hP

/-- The state of the builder when `Finish` starts writing the offsets. -/
theorem flush_spec {P : FilterPolicy} (hP : AppendOnly P) (cs : List Call)
    (h : nonDecreasing 0 cs) :
    ∃ b, (FilterBlockBuilder.new P).run cs = some b ∧
      b.flush.result_ = filterData P cs ∧
      b.flush.filter_offsets_ = offsetsFrom 0 (filtersOf P cs) := by
  obtain ⟨b, hb, hrep⟩ := run_spec hP cs h
  refine ⟨b, hb, ?_⟩
  have hf := hrep.flush hP
  have hfs : (if (partitionKeys cs (lastOffset 0 cs / kFilterBase)).isEmpty
      then (List.range (lastOffset 0 cs / kFilterBase)).map (partitionKeys cs)
      else (List.range (lastOffset 0 cs / kFilterBase)).map (partitionKeys cs)
        ++ [partitionKeys cs (lastOffset 0 cs / kFilterBase)])
      = (List.range (numFilters cs)).map (partitionKeys cs) := by
    unfold numFilters
    split
    · rfl
    · rw [List.range_succ, List.map_append, List.map_singleton]
  rw [hfs] at hf
  have hmap : ((List.range (numFilters cs)).map (partitionKeys cs)).map (filterOf P)
      = filtersOf P cs := by
    simp [filtersOf]
  obtain ⟨_, _, _, hr, ho⟩ := hf
  rw [hmap] at hr ho
  exact ⟨hr, ho⟩

/-- Layout of the block `Finish` returns (offsets taken modulo `2^32`). -/
theorem buildBlock_eq {P : FilterPolicy} (hP : AppendOnly P) (cs : List Call)
    (h : nonDecreasing 0 cs) :
    buildBlock P cs = some (filterData P cs ++
      (offsetWords (filtersOf P cs)).flatMap EncodeFixed32 ++ [Byte.ofNat kFilterBaseLg]) := by
  obtain ⟨b, hb, hr, ho⟩ := flush_spec hP cs h
  simp only [buildBlock, hb, FilterBlockBuilder.Finish, putOffsets_eq, PutFixed32, hr, ho,
    offsetWords, List.flatMap_append, filterData]
  simp

theorem length_EncodeFixed32 (v : Nat) : (EncodeFixed32 v).length = 4 := rfl

theorem length_flatMap_EncodeFixed32 (ws : List Nat) :
    (ws.flatMap EncodeFixed32).length = 4 * ws.length := by
  induction ws with
  | nil => rfl
  | cons w ws ih => simp [List.flatMap_cons, length_EncodeFixed32, ih]; omega

theorem DecodeFixed32_append_left (pre l : List Byte) (pos : Nat) :
    DecodeFixed32 (pre ++ l) (pre.length + pos) = DecodeFixed32 l pos := by
  have h : ∀ i, (pre ++ l)[pre.length + pos + i]? = l[pos + i]? := by
    intro i
    rw [List.getElem?_append_right (by omega)]
    congr 1
    omega
  have h0 := h 0
  simp only [Nat.add_zero] at h0
  simp only [DecodeFixed32, h0, h 1, h 2, h 3]

theorem DecodeFixed32_append_right (l post : List Byte) (pos : Nat) (h : pos + 4 ≤ l.length) :
    DecodeFixed32 (l ++ post) pos = DecodeFixed32 l pos := by
  simp only [DecodeFixed32]
  rw [List.getElem?_append_left (by omega), List.getElem?_append_left (by omega),
    List.getElem?_append_left (by omega), List.getElem?_append_left (by omega)]

theorem DecodeFixed32_EncodeFixed32 (v : Nat) (post : List Byte) :
    DecodeFixed32 (EncodeFixed32 v ++ post) 0 = some (v % 2 ^ 32) := by
  simp only [DecodeFixed32, EncodeFixed32, List.cons_append, List.nil_append,
    List.getElem?_cons_zero, Nat.zero_add, List.getElem?_cons_succ, Byte.ofNat_val]
  congr 1
  omega

theorem DecodeFixed32_words (ws : List Nat) (post : List Byte) (j w : Nat)
    (h : ws[j]? = some w) :
    DecodeFixed32 (ws.flatMap EncodeFixed32 ++ post) (4 * j) = some (w % 2 ^ 32) := by
  induction ws generalizing j with
  | nil => simp at h
  | cons w0 ws ih =>
      cases j with
      | zero =>
          simp only [List.getElem?_cons_zero, Option.some.injEq] at h
          subst h
          rw [List.flatMap_cons, List.append_assoc]
          exact DecodeFixed32_EncodeFixed32 _ _
      | succ j =>
          simp only [List.getElem?_cons_succ] at h
          have := DecodeFixed32_append_left (EncodeFixed32 w0)
            (ws.flatMap EncodeFixed32 ++ post) (4 * j)
          rw [List.flatMap_cons, List.append_assoc,
            show 4 * (j + 1) = (EncodeFixed32 w0).length + 4 * j by
              rw [length_EncodeFixed32]; omega,
            this]
          exact ih j h

theorem offsetsFrom_words (base : Nat) (fl : List (List Byte)) (j : Nat) (hj : j ≤ fl.length) :
    (offsetsFrom base fl ++ [(base + fl.flatten.length) % 2 ^ 32])[j]?
      = some ((base + (fl.take j).flatten.length) % 2 ^ 32) := by
  induction fl generalizing base j with
  | nil =>
      have : j = 0 := by simpa using hj
      subst this
      simp [offsetsFrom]
  | cons f fl ih =>
      cases j with
      | zero => simp [offsetsFrom]
      | succ j =>
          have hj2 : j ≤ fl.length := by simpa using hj
          have := ih (base + f.length) j hj2
          simp only [offsetsFrom, List.cons_append, List.getElem?_cons_succ, List.flatten_cons,
            List.length_append, List.take_succ_cons]
          rw [Nat.add_assoc] at this
          rw [Nat.add_assoc] at this
          exact this

theorem offsetWords_getElem (fl : List (List Byte)) (j : Nat) (hj : j ≤ fl.length) :
    (offsetWords fl)[j]? = some ((fl.take j).flatten.length % 2 ^ 32) := by
  have := offsetsFrom_words 0 fl j hj
  simpa [offsetWords] using this

theorem length_offsetWords (fl : List (List Byte)) : (offsetWords fl).length = fl.length + 1 := by
  simp [offsetWords, length_offsetsFrom]

theorem length_take_flatten_le (fl : List (List Byte)) (j : Nat) :
    (fl.take j).flatten.length ≤ fl.flatten.length := by
  conv_rhs => rw [← List.take_append_drop j fl, List.flatten_append, List.length_append]
  omega

/-- Filter `i` is the slice of the filter data between the end of the first
`i` filters and the end of the first `i + 1`. -/
theorem subSlice_filter (fl : List (List Byte)) (post : List Byte) (i : Nat) (f : List Byte)
    (hi : fl[i]? = some f) :
    subSlice (fl.flatten ++ post) (fl.take i).flatten.length (fl.take (i + 1)).flatten.length
      = some f := by
  have hlt : i < fl.length := by
    by_contra hge
    rw [List.getElem?_eq_none (by omega)] at hi
    cases hi
  have h3 : (fl.take (i + 1)).flatten = (fl.take i).flatten ++ f := by
    rw [List.take_succ, hi]
    simp only [Option.toList, List.flatten_append, List.flatten_cons, List.flatten_nil,
      List.append_nil]
  have h4 : fl.flatten = (fl.take i).flatten ++ (f ++ (fl.drop (i + 1)).flatten) := by
    have hd : fl.drop i = f :: fl.drop (i + 1) := by
      rw [List.drop_eq_getElem_cons hlt]
      congr 1
      rw [List.getElem?_eq_getElem hlt] at hi
      exact Option.some.inj hi
    conv_lhs => rw [← List.take_append_drop i fl, hd]
    simp only [List.flatten_append, List.flatten_cons]
  have hle := length_take_flatten_le fl (i + 1)
  unfold subSlice
  rw [if_pos (by rw [List.length_append]; omega), h3, List.length_append,
    Nat.add_sub_cancel_left]
  congr 1
  rw [h4, List.append_assoc, List.drop_left, List.append_assoc, List.take_left]

theorem length_blockOf (fl : List (List Byte)) :
    (blockOf fl).length = fl.flatten.length + 4 * fl.length + 5 := by
  simp only [blockOf, List.length_append, length_flatMap_EncodeFixed32, length_offsetWords,
    List.length_singleton]
  omega

theorem DecodeFixed32_blockOf (fl : List (List Byte)) (j : Nat) (hj : j ≤ fl.length) :
    DecodeFixed32 (blockOf fl) (fl.flatten.length + 4 * j)
      = some ((fl.take j).flatten.length % 2 ^ 32) := by
  unfold blockOf
  rw [List.append_assoc, DecodeFixed32_append_left,
    DecodeFixed32_words _ _ j _ (offsetWords_getElem fl j hj), Nat.mod_mod]

/-- The reader the constructor builds from a block of the builder. -/
theorem FilterBlockReader.new_blockOf (P : FilterPolicy) (fl : List (List Byte)) :
    FilterBlockReader.new P (blockOf fl) =
      some { policy_ := P, data_ := blockOf fl, offset_ := fl.flatten.length % 2 ^ 32,
             num_ := (fl.flatten.length + 4 * fl.length - fl.flatten.length % 2 ^ 32) / 4,
             base_lg_ := kFilterBaseLg } := by
  have hlen := length_blockOf fl
  have hlast : (blockOf fl)[(blockOf fl).length - 1]? = some (Byte.ofNat kFilterBaseLg) := by
    unfold blockOf
    rw [List.getElem?_append_right (by simp)]
    simp
  have hw : DecodeFixed32 (blockOf fl) ((blockOf fl).length - 5)
      = some (fl.flatten.length % 2 ^ 32) := by
    have := DecodeFixed32_blockOf fl fl.length (le_refl _)
    rw [List.take_length] at this
    rw [hlen, Nat.add_sub_cancel]
    exact this
  have hmod : fl.flatten.length % 2 ^ 32 ≤ fl.flatten.length := Nat.mod_le _ _
  unfold FilterBlockReader.new
  simp only [hlast, hw]
  rw [if_neg (by omega), if_neg (by omega), hlen, Nat.add_sub_cancel]
  rfl

theorem kFilterBase_eq : kFilterBase = 2 ^ kFilterBaseLg := by decide

/-- A reader built from a block of the builder whose filter data is shorter
than `2^32` bytes hands filter `i` to the policy for every block offset of
partition `i`. -/
theorem readBlock_blockOf (P : FilterPolicy) (fl : List (List Byte))
    (hD : fl.flatten.length < 2 ^ 32) (block_offset : Nat) (key : Slice) (f : List Byte)
    (hf : fl[block_offset / kFilterBase]? = some f) :
    readBlock P (blockOf fl) block_offset key = some (P.KeyMayMatch key f) := by
  have hlt : block_offset / kFilterBase < fl.length := by
    by_contra hge
    rw [List.getElem?_eq_none (by omega)] at hf
    cases hf
  have hmod : fl.flatten.length % 2 ^ 32 = fl.flatten.length := Nat.mod_eq_of_lt hD
  have hidx : block_offset >>> (kFilterBaseLg % 64) = block_offset / kFilterBase := by
    rw [show kFilterBaseLg % 64 = kFilterBaseLg from by decide, Nat.shiftRight_eq_div_pow,
      kFilterBase_eq]
  have h1 := length_take_flatten_le fl (block_offset / kFilterBase)
  have h2 := length_take_flatten_le fl (block_offset / kFilterBase + 1)
  have hs := DecodeFixed32_blockOf fl (block_offset / kFilterBase) (by omega)
  have hl := DecodeFixed32_blockOf fl (block_offset / kFilterBase + 1) (by omega)
  rw [Nat.mod_eq_of_lt (by omega)] at hs hl
  have hsub := subSlice_filter fl
    ((offsetWords fl).flatMap EncodeFixed32 ++ [Byte.ofNat kFilterBaseLg])
    (block_offset / kFilterBase) f hf
  rw [← List.append_assoc] at hsub
  have hmono : (fl.take (block_offset / kFilterBase)).flatten.length
      ≤ (fl.take (block_offset / kFilterBase + 1)).flatten.length := by
    rw [List.take_succ, List.flatten_append, List.length_append]
    omega
  simp only [readBlock, FilterBlockReader.new_blockOf, FilterBlockReader.KeyMayMatch,
    FilterBlockReader.KeyMayMatch.lookup, hmod, hidx]
  rw [if_pos (by omega),
    show fl.flatten.length + block_offset / kFilterBase * 4
      = fl.flatten.length + 4 * (block_offset / kFilterBase) by omega,
    show fl.flatten.length + 4 * (block_offset / kFilterBase) + 4
      = fl.flatten.length + 4 * (block_offset / kFilterBase + 1) by omega,
    hs, hl]
  simp only
  rw [if_pos ⟨hmono, h2⟩]
  unfold blockOf
  rw [hsub]

theorem bloom_AppendOnly (p : BloomFilterPolicy) : AppendOnly p.toFilterPolicy :=
  fun keys dst => CreateFilter_frame p keys dst

theorem buildBlock_eq_blockOf {P : FilterPolicy} (hP : AppendOnly P) (cs : List Call)
    (h : nonDecreasing 0 cs) : buildBlock P cs = some (blockOf (filtersOf P cs)) :=
  buildBlock_eq hP cs h

theorem filtersOf_getElem (P : FilterPolicy) (cs : List Call) (i : Nat)
    (hi : i < numFilters cs) :
    (filtersOf P cs)[i]? = some (filterOf P (partitionKeys cs i)) := by
  simp [filtersOf, List.getElem?_map, List.getElem?_range hi]

/-- A reader built from the block of a run hands the filter of partition `i`
to the policy for every block offset of partition `i`. -/
theorem readBlock_buildBlock {P : FilterPolicy} (hP : AppendOnly P) (cs : List Call)
    (h : nonDecreasing 0 cs) (hD : (filterData P cs).length < 2 ^ 32) :
    ∃ out, buildBlock P cs = some out ∧ ∀ block_offset key,
      block_offset / kFilterBase < numFilters cs →
      readBlock P out block_offset key
        = some (P.KeyMayMatch key (filterOf P (partitionKeys cs (block_offset / kFilterBase)))) := by
  refine ⟨_, buildBlock_eq_blockOf hP cs h, ?_⟩
  intro block_offset key hi
  exact readBlock_blockOf P _ hD block_offset key _ (filtersOf_getElem P cs _ hi)

/-- A key added during a block belongs to the partition of that block, and
that partition has a filter after `Finish`. -/
theorem mem_partitionKeys (cs : List Call) (h : nonDecreasing 0 cs) (e : Nat × Slice)
    (he : e ∈ blockKeys 0 cs) :
    e.2 ∈ partitionKeys cs (e.1 / kFilterBase) ∧ e.1 / kFilterBase < numFilters cs := by
  have hmem : e.2 ∈ partitionKeys cs (e.1 / kFilterBase) := by
    unfold partitionKeys
    exact List.mem_map.mpr ⟨e, List.mem_filter.mpr ⟨he, by simp⟩, rfl⟩
  refine ⟨hmem, ?_⟩
  have hle := (blockKeys_le_lastOffset 0 cs h).2 e he
  have hdiv : e.1 / kFilterBase ≤ lastOffset 0 cs / kFilterBase := Nat.div_le_div_right hle
  unfold numFilters
  split
  · rename_i hempty
    rcases Nat.lt_or_ge (e.1 / kFilterBase) (lastOffset 0 cs / kFilterBase) with hlt | hge
    · exact hlt
    · have e2 : e.1 / kFilterBase = lastOffset 0 cs / kFilterBase := by omega
      rw [e2] at hmem
      rw [List.isEmpty_iff] at hempty
      rw [hempty] at hmem
      cases hmem
  · omega

/-! ## Runs read back: auxiliary facts -/

theorem kFilterBase_val : kFilterBase = 2048 := by decide

theorem Finish_eq_blockOf {P : FilterPolicy} (hP : AppendOnly P) (cs : List Call)
    (h : nonDecreasing 0 cs) (b : FilterBlockBuilder)
    (hb : (FilterBlockBuilder.new P).run cs = some b) :
    b.Finish = blockOf (filtersOf P cs) := by
  have := buildBlock_eq_blockOf hP cs h
  simp only [buildBlock, hb] at this
  exact Option.some.inj this

theorem offsetsFrom_eq_map (base : Nat) (fl : List (List Byte)) :
    offsetsFrom base fl
      = (List.range fl.length).map fun i => (base + (fl.take i).flatten.length) % 2 ^ 32 := by
  induction fl generalizing base with
  | nil => rfl
  | cons f fl ih =>
      rw [offsetsFrom, ih, List.length_cons, List.range_succ_eq_map, List.map_cons, List.map_map]
      congr 1
      apply List.map_congr_left
      intro i _
      simp [Nat.add_assoc]

/-- With filter data shorter than `2^32` bytes the offset words are the start
positions of the filters, followed by the length of the filter data. -/
theorem offsetWords_eq (fl : List (List Byte)) (hD : fl.flatten.length < 2 ^ 32) :
    (offsetWords fl).flatMap EncodeFixed32
      = ((List.range fl.length).map fun i => (fl.take i).flatten.length).flatMap EncodeFixed32
        ++ EncodeFixed32 fl.flatten.length := by
  rw [offsetWords, List.flatMap_append, offsetsFrom_eq_map, Nat.mod_eq_of_lt hD]
  congr 1
  · congr 1
    apply List.map_congr_left
    intro i _
    have := length_take_flatten_le fl i
    rw [Nat.zero_add, Nat.mod_eq_of_lt (by omega)]

theorem NewBloomFilterPolicy_AppendOnly (Hash : List Byte → Nat → Nat) (bits_per_key : Nat) :
    AppendOnly (NewBloomFilterPolicy Hash bits_per_key) :=
  bloom_AppendOnly _

theorem filterOf_bloom (Hash : List Byte → Nat → Nat) (bits_per_key : Nat) (ks : List Slice)
    (hne : ks ≠ []) :
    filterOf (NewBloomFilterPolicy Hash bits_per_key) ks
      = (BloomFilterPolicy.new Hash bits_per_key).CreateFilter ks [] := by
  cases ks with
  | nil => exact absurd rfl hne
  | cons k ks => rfl

theorem bloom_KeyMayMatch_nil (p : BloomFilterPolicy) (key : Slice) :
    p.KeyMayMatch key [] = false := by
  simp [BloomFilterPolicy.KeyMayMatch]


theorem numFilters_eq (cs : List Call) :
    numFilters cs = if partitionKeys cs (lastOffset 0 cs / 2048) = []
      then lastOffset 0 cs / 2048 else lastOffset 0 cs / 2048 + 1 := by
  unfold numFilters
  rw [kFilterBase_val]
  cases partitionKeys cs (lastOffset 0 cs / 2048) <;> simp

/-- The reader of a block whose filter data is shorter than `2^32` bytes. -/
theorem FilterBlockReader.new_blockOf_small (P : FilterPolicy) (fl : List (List Byte))
    (hD : fl.flatten.length < 2 ^ 32) :
    FilterBlockReader.new P (blockOf fl) =
      some { policy_ := P, data_ := blockOf fl, offset_ := fl.flatten.length,
             num_ := fl.length, base_lg_ := 11 } := by
  rw [FilterBlockReader.new_blockOf, Nat.mod_eq_of_lt hD, Nat.add_sub_cancel_left,
    Nat.mul_div_cancel_left _ (by decide : 0 < 4)]
  rfl

/-- One step of selecting the keys of partition `i`. -/
theorem partition_filter_cons (off i : Nat) (k : Slice) (l : List (Nat × Slice)) :
    (((off, k) :: l).filter fun e => e.1 / kFilterBase = i).map Prod.snd
      = if off / 2048 = i then k :: (l.filter fun e => e.1 / kFilterBase = i).map Prod.snd
        else (l.filter fun e => e.1 / kFilterBase = i).map Prod.snd := by
  rw [List.filter_cons, ← kFilterBase_val]
  by_cases h : off / kFilterBase = i <;> simp [h]

/-- The partitions of the run with one key in each of the blocks at offsets 0,
2047, 2048 and 5000. -/
theorem four_blocks_partitions (k1 k2 k3 k4 : Slice) :
    lastOffset 0 [Call.StartBlock 0, Call.AddKey k1, Call.StartBlock 2047, Call.AddKey k2,
         Call.StartBlock 2048, Call.AddKey k3, Call.StartBlock 5000, Call.AddKey k4] = 5000 ∧
    partitionKeys [Call.StartBlock 0, Call.AddKey k1, Call.StartBlock 2047, Call.AddKey k2,
         Call.StartBlock 2048, Call.AddKey k3, Call.StartBlock 5000, Call.AddKey k4] 0
      = [k1, k2] ∧
    partitionKeys [Call.StartBlock 0, Call.AddKey k1, Call.StartBlock 2047, Call.AddKey k2,
         Call.StartBlock 2048, Call.AddKey k3, Call.StartBlock 5000, Call.AddKey k4] 1
      = [k3] ∧
    partitionKeys [Call.StartBlock 0, Call.AddKey k1, Call.StartBlock 2047, Call.AddKey k2,
         Call.StartBlock 2048, Call.AddKey k3, Call.StartBlock 5000, Call.AddKey k4] 2
      = [k4] := by
  have h1 : blockKeys 0 [Call.StartBlock 0, Call.AddKey k1, Call.StartBlock 2047, Call.AddKey k2,
         Call.StartBlock 2048, Call.AddKey k3, Call.StartBlock 5000, Call.AddKey k4]
      = [(0, k1), (2047, k2), (2048, k3), (5000, k4)] := rfl
  have e1 : (0 : Nat) / 2048 = 0 := by decide
  have e2 : (2047 : Nat) / 2048 = 0 := by decide
  have e3 : (2048 : Nat) / 2048 = 1 := by decide
  have e4 : (5000 : Nat) / 2048 = 2 := by decide
  refine ⟨rfl, ?_, ?_, ?_⟩ <;>
  · unfold partitionKeys
    rw [h1]
    simp only [partition_filter_cons, e1, e2, e3, e4]
    simp

theorem filtersOf_three (P : FilterPolicy) (cs : List Call) (ks0 ks1 ks2 : List Slice)
    (h : lastOffset 0 cs = 5000) (h0 : partitionKeys cs 0 = ks0)
    (h1 : partitionKeys cs 1 = ks1) (h2 : partitionKeys cs 2 = ks2) (hne : ks2 ≠ []) :
    filtersOf P cs = [filterOf P ks0, filterOf P ks1, filterOf P ks2] := by
  have hn : numFilters cs = 3 := by
    rw [numFilters_eq, h, show (5000 : Nat) / 2048 = 2 from by decide, h2, if_neg hne]
  rw [filtersOf, hn, show List.range 3 = [0, 1, 2] from by decide]
  simp only [List.map, h0, h1, h2]

theorem length_blockKeys_le (cur : Nat) (cs : List Call) :
    (blockKeys cur cs).length ≤ cs.length := by
  induction cs generalizing cur with
  | nil => exact Nat.le_refl _
  | cons c cs ih =>
      cases c with
      | StartBlock off => exact Nat.le_succ_of_le (ih off)
      | AddKey key => exact Nat.succ_le_succ (ih cur)

/-- A partition has no more keys than the run has calls. -/
theorem length_partitionKeys_le (cs : List Call) (i : Nat) :
    (partitionKeys cs i).length ≤ cs.length := by
  unfold partitionKeys
  rw [List.length_map]
  exact le_trans (List.length_filter_le _ _) (length_blockKeys_le 0 cs)

/-! ## A filter of exactly `2^32` bytes: auxiliary facts -/

theorem getD_probes_of_ne (bits delta i : Nat) :
    ∀ (k h : Nat) (l : List Byte),
      (∀ j, j < k → probeHash h delta j % bits / 8 ≠ i) →
      ((CreateFilter.probes bits 0 delta k h l).getD i 0).val = (l.getD i 0).val := by
  intro k
  induction k with
  | zero => intro h l _; rfl
  | succ k ih =>
      intro h l hne
      simp only [CreateFilter.probes]
      rw [ih _ _ (fun j hj => hne (j + 1) (by omega)), getD_setBit]
      have h0 := hne 0 (by omega)
      simp only [probeHash] at h0
      rw [if_neg (fun hc => h0 hc.1.symm)]

theorem getD_keysLoop_of_ne (p : BloomFilterPolicy) (bits i : Nat) :
    ∀ (keys : List Slice) (l : List Byte),
      (∀ key ∈ keys, ∀ j, j < p.k_ →
        probeHash (BloomHash p.Hash key) (rotateDelta (BloomHash p.Hash key)) j % bits / 8 ≠ i) →
      ((CreateFilter.keysLoop p bits 0 keys l).getD i 0).val = (l.getD i 0).val := by
  intro keys
  induction keys with
  | nil => intro l _; rfl
  | cons key keys ih =>
      intro l hne
      simp only [CreateFilter.keysLoop]
      rw [ih _ (fun key' hk => hne key' (List.mem_cons_of_mem _ hk)),
        getD_probes_of_ne _ _ _ _ _ _ (hne key (List.mem_cons_self _ _))]

/-- A byte of the bit array that no probe of any key falls into is zero. -/
theorem bitArray_getD_eq_zero (p : BloomFilterPolicy) (keys : List Slice) (i : Nat)
    (hne : ∀ key ∈ keys, ∀ j, j < p.k_ →
      probeHash (BloomHash p.Hash key) (rotateDelta (BloomHash p.Hash key)) j
        % (p.arrayBytes keys.length * 8) / 8 ≠ i) :
    ((p.bitArray keys).getD i 0).val = 0 := by
  unfold BloomFilterPolicy.bitArray
  rw [getD_keysLoop_of_ne p _ i keys _ hne, List.getD_eq_getElem?_getD, List.getElem?_replicate]
  split <;> rfl

theorem getElem?_eq_getD (l : List Byte) (i : Nat) (h : i < l.length) :
    l[i]? = some (l.getD i 0) := by
  obtain ⟨b, hb⟩ := getElem?_isSome l i h
  rw [List.getD_eq_getElem?_getD, hb]
  rfl

/-- Four zero bytes decode to zero. -/
theorem DecodeFixed32_eq_zero (l : List Byte) (pos : Nat) (h : pos + 4 ≤ l.length)
    (hz : ∀ i, pos ≤ i → i < pos + 4 → (l.getD i 0).val = 0) :
    DecodeFixed32 l pos = some 0 := by
  simp only [DecodeFixed32, getElem?_eq_getD l pos (by omega),
    getElem?_eq_getD l (pos + 1) (by omega), getElem?_eq_getD l (pos + 2) (by omega),
    getElem?_eq_getD l (pos + 3) (by omega), hz pos (by omega) (by omega),
    hz (pos + 1) (by omega) (by omega), hz (pos + 2) (by omega) (by omega),
    hz (pos + 3) (by omega) (by omega)]
  rfl

/-- A decoded word is at least its first byte. -/
theorem DecodeFixed32_ge (l : List Byte) (pos v : Nat) (h : DecodeFixed32 l pos = some v) :
    (l.getD pos 0).val ≤ v := by
  unfold DecodeFixed32 at h
  split at h
  · rename_i b0 b1 b2 b3 h0 _ _ _
    rw [List.getD_eq_getElem?_getD, h0]
    simp only [Option.some.injEq] at h
    simp only [Option.getD_some]
    omega
  · cases h

/-- What the body of `KeyMayMatch` does at an index below `num_` once the two
offsets are decoded. -/
theorem FilterBlockReader.KeyMayMatch.lookup_eq (r : FilterBlockReader) (index : Nat)
    (key : Slice) (start limit : Nat) (hidx : index < r.num_)
    (hs : DecodeFixed32 r.data_ (r.offset_ + index * 4) = some start)
    (hl : DecodeFixed32 r.data_ (r.offset_ + index * 4 + 4) = some limit) :
    FilterBlockReader.KeyMayMatch.lookup r index key =
      if start ≤ limit ∧ limit ≤ r.offset_ then
        (subSlice r.data_ start limit).map fun filter => r.policy_.KeyMayMatch key filter
      else if start = limit then some false
      else some true := by
  simp only [FilterBlockReader.KeyMayMatch.lookup, hidx, if_true, hs, hl]
  split
  · cases subSlice r.data_ start limit <;> rfl
  · rfl

/-- What `KeyMayMatch` of the reader does once the two offsets are decoded. -/
theorem FilterBlockReader.KeyMayMatch_eq (r : FilterBlockReader) (block_offset : Nat)
    (key : Slice) (start limit : Nat) (hidx : block_offset >>> (r.base_lg_ % 64) < r.num_)
    (hs : DecodeFixed32 r.data_ (r.offset_ + (block_offset >>> (r.base_lg_ % 64)) * 4)
      = some start)
    (hl : DecodeFixed32 r.data_ (r.offset_ + (block_offset >>> (r.base_lg_ % 64)) * 4 + 4)
      = some limit) :
    r.KeyMayMatch block_offset key =
      if start ≤ limit ∧ limit ≤ r.offset_ then
        (subSlice r.data_ start limit).map fun filter => r.policy_.KeyMayMatch key filter
      else if start = limit then some false
      else some true :=
  FilterBlockReader.KeyMayMatch.lookup_eq r _ key start limit hidx hs hl

/-- A block of filters seen as the filter data followed by the rest. -/
theorem blockOf_eq_append (fl : List (List Byte)) :
    blockOf fl = fl.flatten ++
      ((offsetWords fl).flatMap EncodeFixed32 ++ [Byte.ofNat kFilterBaseLg]) := by
  rw [blockOf, List.append_assoc]

/-- When one filter of exactly `2^32` bytes is alone in a block and its first
eight bytes are zero, the reader hands the empty slice to the policy. -/
theorem readBlock_wrapped (P : FilterPolicy) (F : List Byte) (key : Slice)
    (hlen : F.length = 2 ^ 32) (hz : ∀ i, i < 8 → (F.getD i 0).val = 0) :
    readBlock P (blockOf [F]) 0 key = some (P.KeyMayMatch key []) := by
  have hflat : [F].flatten = F := by simp
  have hnew := FilterBlockReader.new_blockOf P [F]
  have hone : [F].length = 1 := rfl
  have hnum : (2 ^ 32 + 4 * 1 - 2 ^ 32 % 2 ^ 32) / 4 = 1073741825 := by decide
  have hmod : 2 ^ 32 % 2 ^ 32 = 0 := by decide
  rw [hflat, hlen, hone, hnum, hmod] at hnew
  have hdata : blockOf [F] = F ++
      ((offsetWords [F]).flatMap EncodeFixed32 ++ [Byte.ofNat kFilterBaseLg]) := by
    rw [blockOf_eq_append, hflat]
  have hs : DecodeFixed32 (blockOf [F]) 0 = some 0 := by
    rw [hdata, DecodeFixed32_append_right _ _ _ (by rw [hlen]; decide)]
    exact DecodeFixed32_eq_zero F 0 (by rw [hlen]; decide) (fun i _ hi => hz i (by omega))
  have hl : DecodeFixed32 (blockOf [F]) 4 = some 0 := by
    rw [hdata, DecodeFixed32_append_right _ _ _ (by rw [hlen]; decide)]
    exact DecodeFixed32_eq_zero F 4 (by rw [hlen]; decide) (fun i _ hi => hz i (by omega))
  rw [readBlock, hnew]
  simp only
  rw [FilterBlockReader.KeyMayMatch_eq _ 0 key 0 0
    (show 0 >>> (kFilterBaseLg % 64) < 1073741825 from by decide) hs hl]
  simp only [le_refl, and_self, if_true, subSlice, Nat.zero_le, Nat.sub_self, List.take_zero,
    Option.map_some']

/-- The bit array for `wideKeys` with 1431655765 bits per key has `2^32 - 1`
bytes. -/
theorem wide_arrayBytes :
    (BloomFilterPolicy.new wideHash 1431655765).arrayBytes wideKeys.length = 4294967295 := by
  decide

theorem wide_k : (BloomFilterPolicy.new wideHash 1431655765).k_ = 30 := by decide

/-- No probe of the empty key falls into the first eight bytes, or into bytes
9 to 11. -/
theorem wide_probes_miss :
    ∀ i, i < 12 → i ≠ 8 → ∀ j, j < 30 →
      probeHash 64 (rotateDelta 64) j % (4294967295 * 8) / 8 ≠ i := by
  decide

theorem wide_probes_ne (i : Nat) (hi : i < 12) (h8 : i ≠ 8) :
    ∀ key ∈ wideKeys, ∀ j, j < (BloomFilterPolicy.new wideHash 1431655765).k_ →
      probeHash (BloomHash (BloomFilterPolicy.new wideHash 1431655765).Hash key)
        (rotateDelta (BloomHash (BloomFilterPolicy.new wideHash 1431655765).Hash key)) j
        % ((BloomFilterPolicy.new wideHash 1431655765).arrayBytes wideKeys.length * 8) / 8
        ≠ i := by
  intro key _ j hj
  rw [wide_k] at hj
  rw [wide_arrayBytes]
  have hh : BloomHash (BloomFilterPolicy.new wideHash 1431655765).Hash key = 64 := rfl
  rw [hh]
  exact wide_probes_miss i hi h8 j hj

theorem wideFilter_eq :
    (BloomFilterPolicy.new wideHash 1431655765).CreateFilter wideKeys [] =
      (BloomFilterPolicy.new wideHash 1431655765).bitArray wideKeys
        ++ [Byte.ofNat (BloomFilterPolicy.new wideHash 1431655765).k_] := by
  rw [CreateFilter_eq _ _ _ (by rw [wide_arrayBytes]; decide), List.nil_append]

/-- The filter of the wide run is exactly `2^32` bytes long. -/
theorem wideFilter_length :
    ((BloomFilterPolicy.new wideHash 1431655765).CreateFilter wideKeys []).length = 2 ^ 32 := by
  rw [wideFilter_eq, List.length_append, length_bitArray, wide_arrayBytes]
  decide

theorem wideFilter_getD (i : Nat) (hi : i < 12) :
    ((BloomFilterPolicy.new wideHash 1431655765).CreateFilter wideKeys []).getD i 0
      = ((BloomFilterPolicy.new wideHash 1431655765).bitArray wideKeys).getD i 0 := by
  rw [wideFilter_eq, List.getD_append _ _ _ _ (by rw [length_bitArray, wide_arrayBytes]; omega)]

theorem wideFilter_zero (i : Nat) (hi : i < 12) (h8 : i ≠ 8) :
    (((BloomFilterPolicy.new wideHash 1431655765).CreateFilter wideKeys []).getD i 0).val
      = 0 := by
  rw [wideFilter_getD i hi]
  exact bitArray_getD_eq_zero _ _ i (wide_probes_ne i hi h8)

theorem wideFilter_byte8 :
    (((BloomFilterPolicy.new wideHash 1431655765).CreateFilter wideKeys []).getD 8 0).val
      ≠ 0 := by
  rw [wideFilter_getD 8 (by decide)]
  have hbits : 0 < (BloomFilterPolicy.new wideHash 1431655765).arrayBytes wideKeys.length * 8 := by
    rw [wide_arrayBytes]; decide
  have hmem : ([] : Slice) ∈ wideKeys := by decide
  have h := bitSet_keysLoop_self (BloomFilterPolicy.new wideHash 1431655765) hbits wideKeys
    (List.replicate ((BloomFilterPolicy.new wideHash 1431655765).arrayBytes wideKeys.length) 0)
    (by rw [List.length_replicate]; omega) [] hmem 0 (by rw [wide_k]; decide)
  have hh : BloomHash (BloomFilterPolicy.new wideHash 1431655765).Hash [] = 64 := rfl
  rw [hh] at h
  simp only [probeHash] at h
  rw [wide_arrayBytes, show 64 % (4294967295 * 8) = 64 from by decide] at h
  unfold bitSet at h
  rw [show 64 / 8 = 8 from by decide, show 64 % 8 = 0 from by decide] at h
  intro hz
  unfold BloomFilterPolicy.bitArray at hz
  rw [wide_arrayBytes] at hz
  rw [hz] at h
  simp at h

/-- When a filter of exactly `2^32` bytes is followed by an empty filter, and
bytes 4 to 7 of the first are zero while byte 8 is not, the reader answers
true for the partition of the empty filter. -/
theorem readBlock_wrapped_skip (P : FilterPolicy) (F : List Byte) (key : Slice)
    (hlen : F.length = 2 ^ 32) (hz : ∀ i, 4 ≤ i → i < 8 → (F.getD i 0).val = 0)
    (h8 : (F.getD 8 0).val ≠ 0) :
    readBlock P (blockOf [F, []]) 2048 key = some true := by
  have hflat : [F, []].flatten = F := by simp
  have hnew := FilterBlockReader.new_blockOf P [F, []]
  have htwo : [F, []].length = 2 := rfl
  have hnum : (2 ^ 32 + 4 * 2 - 2 ^ 32 % 2 ^ 32) / 4 = 1073741826 := by decide
  have hmod : 2 ^ 32 % 2 ^ 32 = 0 := by decide
  rw [hflat, hlen, htwo, hnum, hmod] at hnew
  have hdata : blockOf [F, []] = F ++
      ((offsetWords [F, []]).flatMap EncodeFixed32 ++ [Byte.ofNat kFilterBaseLg]) := by
    rw [blockOf_eq_append, hflat]
  have hs : DecodeFixed32 (blockOf [F, []]) 4 = some 0 := by
    rw [hdata, DecodeFixed32_append_right _ _ _ (by rw [hlen]; decide)]
    exact DecodeFixed32_eq_zero F 4 (by rw [hlen]; decide) (fun i h1 h2 => hz i h1 h2)
  obtain ⟨limit, hl, _⟩ := DecodeFixed32_isSome F 8 (by rw [hlen]; decide)
  have hge := DecodeFixed32_ge F 8 limit hl
  have hl2 : DecodeFixed32 (blockOf [F, []]) 8 = some limit := by
    rw [hdata, DecodeFixed32_append_right _ _ _ (by rw [hlen]; decide)]
    exact hl
  rw [readBlock, hnew]
  simp only
  rw [FilterBlockReader.KeyMayMatch_eq _ 2048 key 0 limit
    (show 2048 >>> (kFilterBaseLg % 64) < 1073741826 from by decide)
    (by rw [show (0 : Nat) + 2048 >>> (kFilterBaseLg % 64) * 4 = 4 from by decide]; exact hs)
    (by rw [show (0 : Nat) + 2048 >>> (kFilterBaseLg % 64) * 4 + 4 = 8 from by decide]; exact hl2)]
  dsimp only
  rw [if_neg (by omega), if_neg (by omega)]

theorem wideRun_filtersOf :
    filtersOf (NewBloomFilterPolicy wideHash 1431655765) wideRun
      = [(BloomFilterPolicy.new wideHash 1431655765).CreateFilter wideKeys []] := by
  have hn : numFilters wideRun = 1 := by decide
  have hp : partitionKeys wideRun 0 = wideKeys := by decide
  rw [filtersOf, hn, show List.range 1 = [0] from by decide]
  simp only [List.map]
  rw [hp, filterOf_bloom _ _ _ (by decide)]

theorem wideRunSkip_filtersOf :
    filtersOf (NewBloomFilterPolicy wideHash 1431655765) wideRunSkip
      = [(BloomFilterPolicy.new wideHash 1431655765).CreateFilter wideKeys [], []] := by
  have hn : numFilters wideRunSkip = 2 := by decide
  have hp : partitionKeys wideRunSkip 0 = wideKeys := by decide
  have hp1 : partitionKeys wideRunSkip 1 = [] := by decide
  rw [filtersOf, hn, show List.range 2 = [0, 1] from by decide]
  simp only [List.map]
  rw [hp, hp1, filterOf_bloom _ _ _ (by decide)]
  rfl

theorem length_blockOf_single (F : List Byte) : (blockOf [F]).length = F.length + 9 := by
  rw [length_blockOf]
  simp

/-- The reader of a block that holds one filter of exactly `2^32` bytes. -/
theorem FilterBlockReader.new_blockOf_wrapped (P : FilterPolicy) (F : List Byte)
    (hlen : F.length = 2 ^ 32) :
    FilterBlockReader.new P (blockOf [F]) =
      some { policy_ := P, data_ := blockOf [F], offset_ := 0, num_ := 1073741825,
             base_lg_ := kFilterBaseLg } := by
  have hflat : [F].flatten = F := by simp
  have hnew := FilterBlockReader.new_blockOf P [F]
  have hone : [F].length = 1 := rfl
  have hnum : (2 ^ 32 + 4 * 1 - 2 ^ 32 % 2 ^ 32) / 4 = 1073741825 := by decide
  have hmod : 2 ^ 32 % 2 ^ 32 = 0 := by decide
  rw [hflat, hlen, hone, hnum, hmod] at hnew
  exact hnew


/-! ## Bits, probe positions, offsets and the catch-up loop: auxiliary facts -/

theorem bitSet_setBit_iff (l : List Byte) (pos q : Nat) :
    bitSet (setBit l 0 pos) q ↔ bitSet l q ∨ (q = pos ∧ pos / 8 < l.length) := by
  unfold bitSet
  rw [getD_setBit]
  by_cases h : q / 8 = pos / 8 ∧ q / 8 < l.length
  · rw [if_pos h, Nat.testBit_or, Nat.testBit_two_pow]
    have hq : q = pos ↔ pos % 8 = q % 8 := by omega
    constructor
    · intro hb
      rcases Bool.or_eq_true _ _ |>.mp hb with h1 | h1
      · exact Or.inl h1
      · exact Or.inr ⟨hq.mpr (of_decide_eq_true h1), by omega⟩
    · intro hb
      rcases hb with h1 | ⟨h1, _⟩
      · rw [h1]; rfl
      · rw [decide_eq_true (hq.mp h1)]; simp
  · rw [if_neg h]
    constructor
    · exact Or.inl
    · intro hb
      rcases hb with h1 | ⟨h1, h2⟩
      · exact h1
      · exact absurd ⟨by rw [h1], by rw [h1]; exact h2⟩ h

/-- The bits set after the probe loop of `CreateFilter`: those set before and
those probed (as far as they lie inside the list). -/
theorem bitSet_probes_iff (bits delta q : Nat) :
    ∀ (k h : Nat) (l : List Byte),
      bitSet (CreateFilter.probes bits 0 delta k h l) q ↔
        bitSet l q ∨ ∃ j, j < k ∧ q = probeHash h delta j % bits ∧ q / 8 < l.length := by
  intro k
  induction k with
  | zero =>
      intro h l
      simp [CreateFilter.probes]
  | succ k ih =>
      intro h l
      simp only [CreateFilter.probes]
      rw [ih, bitSet_setBit_iff, length_setBit]
      constructor
      · rintro ((h1 | ⟨h1, h2⟩) | ⟨j, hj, h1, h2⟩)
        · exact Or.inl h1
        · exact Or.inr ⟨0, by omega, h1, by rw [h1]; exact h2⟩
        · exact Or.inr ⟨j + 1, by omega, h1, h2⟩
      · rintro (h1 | ⟨j, hj, h1, h2⟩)
        · exact Or.inl (Or.inl h1)
        · cases j with
          | zero => exact Or.inl (Or.inr ⟨h1, by rw [← show q = h % bits from h1]; exact h2⟩)
          | succ j => exact Or.inr ⟨j, by omega, h1, h2⟩

/-- The bits set after the key loop of `CreateFilter`. -/
theorem bitSet_keysLoop_iff (p : BloomFilterPolicy) (bits q : Nat) :
    ∀ (keys : List Slice) (l : List Byte),
      bitSet (CreateFilter.keysLoop p bits 0 keys l) q ↔
        bitSet l q ∨ ∃ key ∈ keys, ∃ j, j < p.k_ ∧
          q = probeHash (BloomHash p.Hash key) (rotateDelta (BloomHash p.Hash key)) j % bits ∧
          q / 8 < l.length := by
  intro keys
  induction keys with
  | nil => intro l; simp [CreateFilter.keysLoop]
  | cons key keys ih =>
      intro l
      simp only [CreateFilter.keysLoop]
      rw [ih, bitSet_probes_iff, length_probes]
      constructor
      · rintro ((h1 | ⟨j, hj, h1, h2⟩) | ⟨key', hk, j, hj, h1, h2⟩)
        · exact Or.inl h1
        · exact Or.inr ⟨key, List.mem_cons_self _ _, j, hj, h1, h2⟩
        · exact Or.inr ⟨key', List.mem_cons_of_mem _ hk, j, hj, h1, h2⟩
      · rintro (h1 | ⟨key', hk, j, hj, h1, h2⟩)
        · exact Or.inl (Or.inl h1)
        · rcases List.mem_cons.mp hk with rfl | hk
          · exact Or.inl (Or.inr ⟨j, hj, h1, h2⟩)
          · exact Or.inr ⟨key', hk, j, hj, h1, h2⟩

/-- Two bit arrays of the same length with the same bits set are equal. -/
theorem eq_of_bitSet_iff (l1 l2 : List Byte) (hlen : l1.length = l2.length)
    (h : ∀ q, bitSet l1 q ↔ bitSet l2 q) : l1 = l2 := by
  apply List.ext_getElem hlen
  intro i h1 h2
  apply Fin.ext
  apply Nat.eq_of_testBit_eq
  intro m
  by_cases hm : m < 8
  · have hq := h (8 * i + m)
    unfold bitSet at hq
    rw [show (8 * i + m) / 8 = i by omega, show (8 * i + m) % 8 = m by omega,
      List.getD_eq_getElem?_getD, List.getD_eq_getElem?_getD, List.getElem?_eq_getElem h1,
      List.getElem?_eq_getElem h2] at hq
    simp only [Option.getD_some] at hq
    cases hb : (l2[i]).val.testBit m
    · cases ha : (l1[i]).val.testBit m
      · rfl
      · rw [ha, hb] at hq; exact absurd (hq.mp rfl) (by simp)
    · exact hq.mpr hb
  · have hpow : 2 ^ 8 ≤ 2 ^ m := Nat.pow_le_pow_right (by decide) (by omega)
    rw [Nat.testBit_eq_false_of_lt (lt_of_lt_of_le (l1[i]).isLt hpow),
      Nat.testBit_eq_false_of_lt (lt_of_lt_of_le (l2[i]).isLt hpow)]

/-- The key loop of `CreateFilter` does not depend on the order of the keys. -/
theorem keysLoop_perm (p : BloomFilterPolicy) (bits : Nat) (keys keys' : List Slice)
    (l : List Byte) (hperm : keys.Perm keys') :
    CreateFilter.keysLoop p bits 0 keys l = CreateFilter.keysLoop p bits 0 keys' l := by
  apply eq_of_bitSet_iff
  · rw [length_keysLoop, length_keysLoop]
  · intro q
    rw [bitSet_keysLoop_iff, bitSet_keysLoop_iff]
    constructor
    · rintro (h1 | ⟨key, hk, rest⟩)
      · exact Or.inl h1
      · exact Or.inr ⟨key, hperm.mem_iff.mp hk, rest⟩
    · rintro (h1 | ⟨key, hk, rest⟩)
      · exact Or.inl h1
      · exact Or.inr ⟨key, hperm.mem_iff.mpr hk, rest⟩

theorem CreateFilter_perm (p : BloomFilterPolicy) (keys keys' : List Slice) (dst : List Byte)
    (hperm : keys.Perm keys') : p.CreateFilter keys dst = p.CreateFilter keys' dst := by
  rw [CreateFilter_frame p keys, CreateFilter_frame p keys']
  congr 1
  simp only [BloomFilterPolicy.CreateFilter, List.nil_append, List.length_nil, hperm.length_eq]
  exact keysLoop_perm p _ keys keys' _ hperm

/-- Closed form of the value of `h` at the start of iteration `j`. -/
theorem probeHash_eq (h delta : Nat) (hh : h < 2 ^ 32) :
    ∀ j, probeHash h delta j = (h + j * delta) % 2 ^ 32 := by
  intro j
  induction j generalizing h with
  | zero => rw [probeHash, Nat.zero_mul, Nat.add_zero, Nat.mod_eq_of_lt hh]
  | succ j ih =>
      rw [probeHash, ih _ (Nat.mod_lt _ (by decide))]
      rw [Nat.add_mod, Nat.mod_mod, ← Nat.add_mod]
      congr 1
      ring

theorem BloomHash_lt (Hash : List Byte → Nat → Nat) (key : Slice) :
    BloomHash Hash key < 2 ^ 32 :=
  Nat.mod_lt _ (by decide)

theorem probes_eq_foldl (bits init delta : Nat) :
    ∀ (k h : Nat) (dst : List Byte),
      CreateFilter.probes bits init delta k h dst
        = (probePositions bits delta k h).foldl (fun d pos => setBit d init pos) dst := by
  intro k
  induction k with
  | zero => intro h dst; rfl
  | succ k ih => intro h dst; simp only [CreateFilter.probes, probePositions, List.foldl_cons, ih]

theorem keysLoop_eq_foldl (p : BloomFilterPolicy) (bits init : Nat) :
    ∀ (keys : List Slice) (dst : List Byte),
      CreateFilter.keysLoop p bits init keys dst
        = (CreateFilter.positions p bits keys).foldl (fun d pos => setBit d init pos) dst := by
  intro keys
  induction keys with
  | nil => intro dst; rfl
  | cons key keys ih =>
      intro dst
      simp only [CreateFilter.keysLoop, CreateFilter.positions, List.flatMap_cons,
        List.foldl_append, probes_eq_foldl]
      exact ih _

theorem mem_probePositions (bits delta pos : Nat) :
    ∀ (k h : Nat), pos ∈ probePositions bits delta k h → ∃ x, pos = x % bits := by
  intro k
  induction k with
  | zero => intro h hm; cases hm
  | succ k ih =>
      intro h hm
      rcases List.mem_cons.mp hm with rfl | hm
      · exact ⟨h, rfl⟩
      · exact ih _ hm

theorem mem_positions (p : BloomFilterPolicy) (bits pos : Nat) (keys : List Slice)
    (hm : pos ∈ CreateFilter.positions p bits keys) : ∃ x, pos = x % bits := by
  obtain ⟨key, _, hk⟩ := List.mem_flatMap.mp hm
  exact mem_probePositions _ _ _ _ _ hk

/-- The probe loop of `KeyMayMatch` tests the bits at its positions in order
and stops at the first that is clear. -/
theorem KeyMayMatch_probes_eq_all (array : List Byte) (bits delta : Nat) :
    ∀ (k h : Nat), KeyMayMatch.probes array bits delta k h
      = (probePositions bits delta k h).all fun pos =>
          decide (¬ (array.getD (pos / 8) 0).val &&& (1 <<< (pos % 8)) = 0) := by
  intro k
  induction k with
  | zero => intro h; rfl
  | succ k ih =>
      intro h
      simp only [KeyMayMatch.probes, probePositions, List.all_cons, ih]
      split
      · rename_i hz
        rw [decide_eq_false (not_not.mpr hz), Bool.false_and]
      · rename_i hz
        rw [decide_eq_true hz, Bool.true_and]

theorem getLast?_eq_getD (l : List Byte) (b : Byte) (h : l.getLast? = some b) :
    l.getD (l.length - 1) 0 = b := by
  rw [List.getLast?_eq_getElem?] at h
  rw [List.getD_eq_getElem?_getD, h]
  rfl

theorem not_bitSet_zeros (n q : Nat) : ¬ bitSet (List.replicate n (0 : Byte)) q := by
  unfold bitSet
  rw [List.getD_eq_getElem?_getD, List.getElem?_replicate]
  split <;> simp

/-- The bits set in the bit array of a filter are the probe positions of its
keys. -/
theorem bitSet_bitArray_iff (p : BloomFilterPolicy) (keys : List Slice) (q : Nat)
    (hpos : 0 < p.arrayBytes keys.length) :
    bitSet (p.bitArray keys) q ↔ ∃ key ∈ keys, ∃ j, j < p.k_ ∧
      q = probeHash (BloomHash p.Hash key) (rotateDelta (BloomHash p.Hash key)) j
        % (p.arrayBytes keys.length * 8) := by
  unfold BloomFilterPolicy.bitArray
  rw [bitSet_keysLoop_iff]
  constructor
  · rintro (h1 | ⟨key, hk, j, hj, h1, _⟩)
    · exact absurd h1 (not_bitSet_zeros _ _)
    · exact ⟨key, hk, j, hj, h1⟩
  · rintro ⟨key, hk, j, hj, h1⟩
    refine Or.inr ⟨key, hk, j, hj, h1, ?_⟩
    have := Nat.mod_lt (probeHash (BloomHash p.Hash key) (rotateDelta (BloomHash p.Hash key)) j)
      (show 0 < p.arrayBytes keys.length * 8 by omega)
    rw [List.length_replicate]
    omega


theorem CreateFilter_eq_foldl (p : BloomFilterPolicy) (keys : List Slice) (dst : List Byte) :
    p.CreateFilter keys dst
      = (CreateFilter.positions p (p.arrayBytes keys.length * 8) keys).foldl
          (fun d pos => setBit d dst.length pos)
          (dst ++ List.replicate (p.arrayBytes keys.length) 0 ++ [Byte.ofNat p.k_]) := by
  rw [← keysLoop_eq_foldl]
  rfl

/-- Permuting the keys of a partition leaves its filter unchanged. -/
theorem filterOf_bloom_perm (Hash : List Byte → Nat → Nat) (bits_per_key : Nat)
    (ks ks' : List Slice) (hperm : ks.Perm ks') :
    filterOf (NewBloomFilterPolicy Hash bits_per_key) ks
      = filterOf (NewBloomFilterPolicy Hash bits_per_key) ks' := by
  by_cases hnil : ks = []
  · subst hnil
    rw [List.Perm.nil_eq hperm]
  · have hnil' : ks' ≠ [] := fun h => hnil (by rw [h] at hperm; exact List.Perm.eq_nil hperm)
    rw [filterOf_bloom _ _ _ hnil, filterOf_bloom _ _ _ hnil']
    exact CreateFilter_perm _ ks ks' [] hperm


theorem floor_mul_frac (b : Nat) : ⌊(b : ℚ) * (69 / 100)⌋₊ = b * 69 / 100 := by
  rw [show (b : ℚ) * (69 / 100) = ((b * 69 : Nat) : ℚ) / ((100 : Nat) : ℚ) by push_cast; ring]
  exact Nat.floor_div_eq_div _ _


theorem FilterBlockReader.new_isSome (policy : FilterPolicy) (contents : Slice) :
    ∃ r, FilterBlockReader.new policy contents = some r := by
  rcases FilterBlockReader.new_cases policy contents with ⟨_, h⟩ | ⟨_, lg, w, _, _, hc⟩
  · exact ⟨_, h⟩
  · rcases hc with ⟨_, h⟩ | ⟨_, h⟩ <;> exact ⟨_, h⟩

theorem subSlice_eq (data : List Byte) (start limit : Nat) (h : limit ≤ data.length) :
    subSlice data start limit = some ((data.drop start).take (limit - start)) := by
  rw [subSlice, if_pos h]


theorem length_GenerateFilter (b : FilterBlockBuilder) :
    b.GenerateFilter.filter_offsets_.length = b.filter_offsets_.length + 1 := by
  by_cases h : b.start_.length = 0 <;> simp [FilterBlockBuilder.GenerateFilter, h]

/-- The catch-up loop runs `filter_index - filter_offsets_.size()` times: more
fuel does not change its result. -/
theorem loop_fuel (filter_index : Nat) :
    ∀ (fuel : Nat) (b : FilterBlockBuilder),
      filter_index - b.filter_offsets_.length ≤ fuel →
      FilterBlockBuilder.StartBlock.loop filter_index fuel b
        = FilterBlockBuilder.StartBlock.loop filter_index
            (filter_index - b.filter_offsets_.length) b := by
  intro fuel
  induction fuel with
  | zero =>
      intro b h
      rw [Nat.le_zero.mp h]
  | succ fuel ih =>
      intro b h
      by_cases hc : filter_index > b.filter_offsets_.length
      · obtain ⟨m, hm⟩ : ∃ m, filter_index - b.filter_offsets_.length = m + 1 :=
          ⟨filter_index - b.filter_offsets_.length - 1, by omega⟩
        rw [hm]
        simp only [FilterBlockBuilder.StartBlock.loop]
        rw [if_pos hc, if_pos hc]
        have hg := length_GenerateFilter b
        have hm2 : filter_index - b.GenerateFilter.filter_offsets_.length = m := by omega
        rw [ih _ (by omega), hm2]
      · rw [loop_eq_self _ _ _ (by omega), loop_eq_self _ _ _ (by omega)]

theorem length_loop (filter_index : Nat) :
    ∀ (fuel : Nat) (b : FilterBlockBuilder),
      b.filter_offsets_.length ≤ filter_index →
      filter_index - b.filter_offsets_.length ≤ fuel →
      (FilterBlockBuilder.StartBlock.loop filter_index fuel b).filter_offsets_.length
        = filter_index := by
  intro fuel
  induction fuel with
  | zero => intro b h1 h2; simp only [FilterBlockBuilder.StartBlock.loop]; omega
  | succ fuel ih =>
      intro b h1 h2
      simp only [FilterBlockBuilder.StartBlock.loop]
      have hg := length_GenerateFilter b
      split
      · exact ih _ (by omega) (by omega)
      · omega

theorem nonDecreasing_append_left (cur : Nat) (l1 l2 : List Call)
    (h : nonDecreasing cur (l1 ++ l2)) : nonDecreasing cur l1 := by
  induction l1 generalizing cur with
  | nil => trivial
  | cons c l1 ih =>
      cases c with
      | StartBlock off => exact ⟨h.1, ih off h.2⟩
      | AddKey key => exact ih cur h

theorem offsetsFrom_append_list (base : Nat) (l1 l2 : List (List Byte)) :
    offsetsFrom base (l1 ++ l2)
      = offsetsFrom base l1 ++ offsetsFrom (base + l1.flatten.length) l2 := by
  induction l1 generalizing base with
  | nil => simp [offsetsFrom]
  | cons f l1 ih => simp [offsetsFrom, ih, Nat.add_assoc]

theorem offsetsFrom_replicate_nil (base m : Nat) :
    offsetsFrom base (List.replicate m ([] : List Byte)) = List.replicate m (base % 2 ^ 32) := by
  induction m with
  | zero => rfl
  | succ m ih => simp [List.replicate_succ, offsetsFrom, ih]

theorem flatten_replicate_nil (m : Nat) :
    (List.replicate m ([] : List Byte)).flatten = [] := by
  induction m with
  | zero => rfl
  | succ m ih => simp [List.replicate_succ, ih]

theorem filterOf_nil (P : FilterPolicy) : filterOf P [] = [] := rfl

/-- What one call of `StartBlock` does to a builder that holds the filters of
the key lists `done` and the pending keys `pending`. -/
theorem StartBlock_spec {P : FilterPolicy} (hP : AppendOnly P) (b0 : FilterBlockBuilder)
    (done : List (List Slice)) (pending : List Slice) (block_offset : Nat)
    (hrep : Rep P b0 done pending)
    (hle : b0.filter_offsets_.length ≤ block_offset / 2048) :
    ∃ b1, b0.StartBlock block_offset = some b1 ∧
      (∀ fuel, block_offset / 2048 - b0.filter_offsets_.length ≤ fuel →
        FilterBlockBuilder.StartBlock.loop (block_offset / 2048) fuel b0 = b1) ∧
      b1.filter_offsets_.length = block_offset / 2048 ∧
      (b0.filter_offsets_.length = block_offset / 2048 → b1 = b0) ∧
      (b0.filter_offsets_.length < block_offset / 2048 →
        Rep P b1 (done ++ pending ::
          List.replicate (block_offset / 2048 - b0.filter_offsets_.length - 1) []) [] ∧
        b1.result_ = b0.result_ ++ filterOf P pending ∧
        b1.filter_offsets_ = b0.filter_offsets_ ++ (b0.result_.length % 2 ^ 32) ::
          List.replicate (block_offset / 2048 - b0.filter_offsets_.length - 1)
            (b1.result_.length % 2 ^ 32) ∧
        b1.start_ = [] ∧ b1.keys_ = []) := by
  have hlen := hrep.length_offsets
  have hk : block_offset / kFilterBase = block_offset / 2048 := by rw [kFilterBase_val]
  refine ⟨FilterBlockBuilder.StartBlock.loop (block_offset / 2048) (block_offset / 2048) b0,
    ?_, ?_, ?_, ?_, ?_⟩
  · simp only [FilterBlockBuilder.StartBlock, hk]
    rw [if_neg (by omega)]
  · intro fuel hf
    rw [loop_fuel _ fuel b0 hf, loop_fuel _ (block_offset / 2048) b0 (by omega)]
  · exact length_loop _ _ _ hle (by omega)
  · intro heq
    exact loop_eq_self _ _ _ (by omega)
  · intro hlt
    have hr := Rep.loop hP (block_offset / 2048) (block_offset / 2048) b0 done pending hrep
      (by omega) (by omega)
    rw [← hlen] at hr
    refine ⟨hr, ?_, ?_, ?_, ?_⟩
    · rw [hr.2.2.2.1, hrep.2.2.2.1]
      simp [List.map_append, List.flatten_append, filterOf_nil, flatten_replicate_nil,
        List.map_replicate]
    · have hres : (FilterBlockBuilder.StartBlock.loop (block_offset / 2048)
          (block_offset / 2048) b0).result_ = b0.result_ ++ filterOf P pending := by
        rw [hr.2.2.2.1, hrep.2.2.2.1]
        simp [List.map_append, List.flatten_append, filterOf_nil, flatten_replicate_nil,
          List.map_replicate]
      rw [hres, hr.2.2.2.2, hrep.2.2.2.2, hrep.2.2.2.1, List.map_append, offsetsFrom_append_list,
        List.map_cons, offsetsFrom, List.map_replicate, filterOf_nil, offsetsFrom_replicate_nil,
        Nat.zero_add, List.length_append]
    · rw [hr.2.2.1]; rfl
    · rw [hr.2.1]; rfl

theorem length_CreateFilter (p : BloomFilterPolicy) (keys : List Slice) (dst : List Byte) :
    (p.CreateFilter keys dst).length = dst.length + p.arrayBytes keys.length + 1 := by
  simp only [BloomFilterPolicy.CreateFilter, length_keysLoop, List.length_append,
    List.length_replicate, List.length_singleton]
  rfl

theorem filterOf_bloom_eq_nil_iff (Hash : List Byte → Nat → Nat) (bits_per_key : Nat)
    (ks : List Slice) : filterOf (NewBloomFilterPolicy Hash bits_per_key) ks = [] ↔ ks = [] := by
  constructor
  · intro h
    by_contra hne
    rw [filterOf_bloom _ _ _ hne] at h
    have := length_CreateFilter (BloomFilterPolicy.new Hash bits_per_key) ks []
    rw [h] at this
    simp at this
  · intro h
    rw [h]
    rfl

theorem length_take_flatten_mono (fl : List (List Byte)) (i j : Nat) (hij : i ≤ j) :
    (fl.take i).flatten.length ≤ (fl.take j).flatten.length := by
  have h := length_take_flatten_le (fl.take j) i
  rw [List.take_take, Nat.min_eq_left hij] at h
  exact h

theorem length_take_succ_flatten (fl : List (List Byte)) (i : Nat) (f : List Byte)
    (hf : fl[i]? = some f) :
    ((fl.take (i + 1)).flatten).length = ((fl.take i).flatten).length + f.length := by
  rw [List.take_succ, hf]
  simp only [Option.toList, List.flatten_append, List.flatten_cons, List.flatten_nil,
    List.append_nil, List.length_append]

/-- The offset words of filters that fit in `2^32` bytes never decrease, none
exceeds the length of the filter data, and two consecutive ones are equal
exactly when the filter between them is empty. -/
theorem offsetWords_invariant (fl : List (List Byte)) (hD : fl.flatten.length < 2 ^ 32) :
    List.Pairwise (fun a b => a ≤ b) (offsetsFrom 0 fl) ∧
    (∀ o ∈ offsetsFrom 0 fl, o ≤ fl.flatten.length % 2 ^ 32) ∧
    ∀ i f, fl[i]? = some f →
      ((offsetsFrom 0 fl ++ [fl.flatten.length % 2 ^ 32])[i]?
        = (offsetsFrom 0 fl ++ [fl.flatten.length % 2 ^ 32])[i + 1]? ↔ f = []) := by
  have hsmall : ∀ j, (fl.take j).flatten.length % 2 ^ 32 = (fl.take j).flatten.length :=
    fun j => Nat.mod_eq_of_lt (lt_of_le_of_lt (length_take_flatten_le fl j) hD)
  have hmap : offsetsFrom 0 fl
      = (List.range fl.length).map fun i => (fl.take i).flatten.length := by
    rw [offsetsFrom_eq_map]
    apply List.map_congr_left
    intro i _
    rw [Nat.zero_add, hsmall]
  refine ⟨?_, ?_, ?_⟩
  · rw [hmap, List.pairwise_map]
    exact (List.pairwise_lt_range fl.length).imp
      (fun h => length_take_flatten_mono fl _ _ (le_of_lt h))
  · intro o ho
    rw [hmap] at ho
    obtain ⟨i, _, rfl⟩ := List.mem_map.mp ho
    rw [Nat.mod_eq_of_lt hD]
    exact length_take_flatten_le fl i
  · intro i f hf
    have hlt : i < fl.length := by
      by_contra hge
      rw [List.getElem?_eq_none (by omega)] at hf
      cases hf
    have h1 := offsetWords_getElem fl i (by omega)
    have h2 := offsetWords_getElem fl (i + 1) (by omega)
    unfold offsetWords at h1 h2
    rw [h1, h2, hsmall, hsmall, length_take_succ_flatten fl i f hf]
    constructor
    · intro h
      have : f.length = 0 := by
        have := Option.some.inj h
        omega
      exact List.length_eq_zero.mp this
    · intro h
      rw [h]
      rfl

/-- The bytes `Finish` returns: the filter data after the final flush, the
recorded offsets, the 32-bit array offset and the byte 11. -/
theorem Finish_eq (b : FilterBlockBuilder) :
    b.Finish = b.flush.result_ ++ b.flush.filter_offsets_.flatMap EncodeFixed32
      ++ EncodeFixed32 (b.flush.result_.length % 2 ^ 32) ++ [11] := by
  simp only [FilterBlockBuilder.Finish, putOffsets_eq, PutFixed32]
  rfl

/-- A single filter starts at offset 0. -/
theorem offsetsFrom_single (F : List Byte) : offsetsFrom 0 [F] = [0] := rfl

/-- The body of `KeyMayMatch` returns an answer at every index: no read of a
reader built by the constructor leaves the region. -/
theorem FilterBlockReader.KeyMayMatch.lookup_isSome (policy : FilterPolicy) (contents : Slice)
    (r : FilterBlockReader) (hnew : FilterBlockReader.new policy contents = some r)
    (index : Nat) (key : Slice) :
    ∃ answer, FilterBlockReader.KeyMayMatch.lookup r index key = some answer := by
  by_cases hidx : index < r.num_
  · obtain ⟨hd, hb, _⟩ := FilterBlockReader.entries_in_bounds policy contents r hnew _ hidx
    obtain ⟨start, hs, _⟩ := DecodeFixed32_isSome contents (r.offset_ + index * 4) (by omega)
    obtain ⟨limit, hl, _⟩ := DecodeFixed32_isSome contents (r.offset_ + index * 4 + 4)
      (by omega)
    rw [FilterBlockReader.KeyMayMatch.lookup_eq r index key start limit hidx
      (by rw [hd]; exact hs) (by rw [hd]; exact hl)]
    by_cases hc : start ≤ limit ∧ limit ≤ r.offset_
    · rw [if_pos hc, hd, subSlice_eq _ _ _ (by omega)]
      exact ⟨_, rfl⟩
    · rw [if_neg hc]
      by_cases he : start = limit
      · exact ⟨false, by rw [if_pos he]⟩
      · exact ⟨true, by rw [if_neg he]⟩
  · exact ⟨true, by simp [FilterBlockReader.KeyMayMatch.lookup, hidx]⟩

/-! ## The properties of the specification -/

/-- C1 (no false negatives).  For `bits_per_key` from 1 to 32, every list of
keys `S` (of a length an `int` can hold) and every key of `S`, `KeyMayMatch`
answers true on the filter that `CreateFilter` appends to an empty buffer,
whatever the function `Hash` is. -/
theorem bloom_no_false_negatives (Hash : List Byte → Nat → Nat) (bits_per_key : Nat)
    (S : List Slice) (key : Slice) (_h1 : 1 ≤ bits_per_key) (h32 : bits_per_key ≤ 32)
    (hn : S.length < 2 ^ 31) (hmem : key ∈ S) :
    (BloomFilterPolicy.new Hash bits_per_key).KeyMayMatch key
      ((BloomFilterPolicy.new Hash bits_per_key).CreateFilter S []) = true := by
  have hb : (BloomFilterPolicy.new Hash bits_per_key).bits_per_key_ < 2 ^ 31 :=
    lt_of_le_of_lt h32 (by norm_num)
  have hpos := arrayBytes_pos _ S.length hn hb
  rw [CreateFilter_eq _ S [] (by omega), List.nil_append]
  exact KeyMayMatch_of_mem _ _ S key rfl (by omega) (new_k_bounds Hash bits_per_key).2 hmem

/-- C1 at two keys with ten bits per key. -/
theorem bloom_no_false_negatives_witness :
    (1 ≤ 10 ∧ 10 ≤ 32 ∧ [[1], [2, 3]].length < 2 ^ 31 ∧ ([2, 3] : Slice) ∈ [[1], [2, 3]]) ∧
    (BloomFilterPolicy.new sampleHash 10).KeyMayMatch [2, 3]
      ((BloomFilterPolicy.new sampleHash 10).CreateFilter [[1], [2, 3]] []) = true :=
  ⟨⟨by decide, by decide, by decide, by decide⟩,
    bloom_no_false_negatives sampleHash 10 [[1], [2, 3]] [2, 3]
      (by decide) (by decide) (by decide) (by decide)⟩

/-- C2, as the code has it (round trip of builder and reader within the
32-bit offsets of the block).  For the Bloom policy with `bits_per_key` in the
range of `int`, every valid run in which each partition receives fewer than
`2^31` keys and whose filter data is shorter than `2^32` bytes, `Finish`
returns a block, and a reader built from it with the same policy answers true
for every key at the offset of the block it was added to.  The order of the
keys is that of the run, whatever it is. -/
theorem filter_block_round_trip (Hash : List Byte → Nat → Nat) (bits_per_key : Nat)
    (cs : List Call) (hv : ValidRun cs) (hb : bits_per_key < 2 ^ 31)
    (hk : ∀ i, (partitionKeys cs i).length < 2 ^ 31)
    (hD : (filterData (NewBloomFilterPolicy Hash bits_per_key) cs).length < 2 ^ 32) :
    ∃ out, buildBlock (NewBloomFilterPolicy Hash bits_per_key) cs = some out ∧
      ∀ e ∈ blockKeys 0 cs,
        readBlock (NewBloomFilterPolicy Hash bits_per_key) out e.1 e.2 = some true := by
  obtain ⟨out, hout, hread⟩ := readBlock_buildBlock (NewBloomFilterPolicy_AppendOnly Hash bits_per_key) cs hv.2 hD
  refine ⟨out, hout, ?_⟩
  intro e he
  obtain ⟨hmem, hlt⟩ := mem_partitionKeys cs hv.2 e he
  rw [hread e.1 e.2 hlt]
  congr 1
  have hne : partitionKeys cs (e.1 / kFilterBase) ≠ [] := by
    intro hnil
    rw [hnil] at hmem
    cases hmem
  have hbits : (BloomFilterPolicy.new Hash bits_per_key).bits_per_key_ < 2 ^ 31 := hb
  have hpos := arrayBytes_pos _ _ (hk (e.1 / kFilterBase)) hbits
  rw [filterOf_bloom Hash bits_per_key _ hne, CreateFilter_eq _ _ [] (by omega),
    List.nil_append]
  exact KeyMayMatch_of_mem _ _ _ _ rfl (by omega) (new_k_bounds Hash bits_per_key).2 hmem

/-- C2 at the sample run. -/
theorem filter_block_round_trip_witness :
    (ValidRun sampleRun ∧ 10 < 2 ^ 31 ∧ (∀ i, (partitionKeys sampleRun i).length < 2 ^ 31) ∧
      (filterData (NewBloomFilterPolicy sampleHash 10) sampleRun).length < 2 ^ 32) ∧
    ∃ out, buildBlock (NewBloomFilterPolicy sampleHash 10) sampleRun = some out ∧
      ∀ e ∈ blockKeys 0 sampleRun,
        readBlock (NewBloomFilterPolicy sampleHash 10) out e.1 e.2 = some true :=
  ⟨⟨by decide, by decide,
      fun i => lt_of_le_of_lt (length_partitionKeys_le sampleRun i) (by decide), by decide⟩,
    filter_block_round_trip sampleHash 10 sampleRun (by decide) (by decide)
      (fun i => lt_of_le_of_lt (length_partitionKeys_le sampleRun i) (by decide)) (by decide)⟩

/-- C2 as stated fails: 24 empty keys added to the block at offset 0, with
1431655765 bits per key and a hash that sends every key to 64, give one filter
of exactly `2^32` bytes.  The array offset wraps to 0, the reader decodes the
first eight (zero) bytes of the filter as the entry of partition 0, and
answers false for a key that was added. -/
theorem filter_block_round_trip_counterexample :
    ValidRun wideRun ∧ (0, ([] : Slice)) ∈ blockKeys 0 wideRun ∧
    ∃ out, buildBlock (NewBloomFilterPolicy wideHash 1431655765) wideRun = some out ∧
      out.length = 2 ^ 32 + 9 ∧
      readBlock (NewBloomFilterPolicy wideHash 1431655765) out 0 [] = some false := by
  refine ⟨by decide, by decide, _,
    buildBlock_eq_blockOf (NewBloomFilterPolicy_AppendOnly wideHash 1431655765) wideRun
      (by decide), ?_, ?_⟩
  · rw [wideRun_filtersOf, length_blockOf_single, wideFilter_length]
  · rw [wideRun_filtersOf,
      readBlock_wrapped _ _ [] wideFilter_length (fun i hi => wideFilter_zero i (by omega) (by omega))]
    exact congrArg some (bloom_KeyMayMatch_nil (BloomFilterPolicy.new wideHash 1431655765) [])

/-- C4 (corrupt-region fallback).  For a region shorter than 5 bytes, or one
whose array offset (the little-endian word in the 4 bytes before the last
byte) is greater than the length minus 5, a reader built from it answers true
for every block offset, key and policy. -/
theorem reader_corrupt_region_fallback (policy : FilterPolicy) (contents : Slice)
    (block_offset : Nat) (key : Slice)
    (h : contents.length < 5 ∨
      ∃ w, DecodeFixed32 contents (contents.length - 5) = some w ∧ contents.length - 5 < w) :
    readBlock policy contents block_offset key = some true := by
  rcases FilterBlockReader.new_cases policy contents with ⟨_, hnew⟩ | ⟨h5, lg, w, _, hw, hc⟩
  · simp [readBlock, hnew, FilterBlockReader.KeyMayMatch, FilterBlockReader.KeyMayMatch.lookup]
  · rcases hc with ⟨_, hnew⟩ | ⟨hle, _⟩
    · simp [readBlock, hnew, FilterBlockReader.KeyMayMatch, FilterBlockReader.KeyMayMatch.lookup]
    · rcases h with h | ⟨w', hw', hlt⟩
      · omega
      · rw [hw] at hw'; cases hw'; omega

/-- C4 at a region of 9 bytes whose array offset is 200. -/
theorem reader_corrupt_region_fallback_witness :
    (([9, 9, 9, 9, 200, 0, 0, 0, 11] : Slice).length < 5 ∨
      ∃ w, DecodeFixed32 [9, 9, 9, 9, 200, 0, 0, 0, 11]
          (([9, 9, 9, 9, 200, 0, 0, 0, 11] : Slice).length - 5) = some w ∧
        ([9, 9, 9, 9, 200, 0, 0, 0, 11] : Slice).length - 5 < w) ∧
    readBlock rejectAll [9, 9, 9, 9, 200, 0, 0, 0, 11] 0 [7] = some true :=
  ⟨Or.inr ⟨200, by decide, by decide⟩,
    reader_corrupt_region_fallback rejectAll [9, 9, 9, 9, 200, 0, 0, 0, 11] 0 [7]
      (Or.inr ⟨200, by decide, by decide⟩)⟩

/-- C5 (out-of-range query).  In every reader state, whatever its policy, a
block offset whose partition index `block_offset >> base_lg_` (the shift as the
compiled code performs it, by the count modulo 64) is at least `num_` makes
`KeyMayMatch` answer true. -/
theorem reader_out_of_range_query (r : FilterBlockReader) (block_offset : Nat) (key : Slice)
    (h : r.num_ ≤ block_offset >>> (r.base_lg_ % 64)) :
    r.KeyMayMatch block_offset key = some true := by
  simp [FilterBlockReader.KeyMayMatch, FilterBlockReader.KeyMayMatch.lookup, not_lt.mpr h]

/-- C5 at a reader with two entries asked about partition 2; its policy
rejects every key. -/
theorem reader_out_of_range_query_witness :
    (2 ≤ 4096 >>> (11 % 64)) ∧
    FilterBlockReader.KeyMayMatch
      { policy_ := rejectAll, data_ := [0, 0, 0, 0, 0, 0, 0, 0, 0, 0, 0, 0, 11],
        offset_ := 0, num_ := 2, base_lg_ := 11 } 4096 [7] = some true :=
  ⟨by decide,
    reader_out_of_range_query
      { policy_ := rejectAll, data_ := [0, 0, 0, 0, 0, 0, 0, 0, 0, 0, 0, 0, 11],
        offset_ := 0, num_ := 2, base_lg_ := 11 } 4096 [7] (by decide)⟩

/-- C6 (the filter of the empty key set matches nothing).  For every
`bits_per_key` and every key, `KeyMayMatch` answers false on the filter that
`CreateFilter` produces for zero keys. -/
theorem bloom_empty_filter_matches_nothing (Hash : List Byte → Nat → Nat)
    (bits_per_key : Nat) (key : Slice) :
    (BloomFilterPolicy.new Hash bits_per_key).KeyMayMatch key
      ((BloomFilterPolicy.new Hash bits_per_key).CreateFilter [] []) = false := by
  obtain ⟨h1, h30⟩ := new_k_bounds Hash bits_per_key
  generalize BloomFilterPolicy.new Hash bits_per_key = p at h1 h30
  rw [CreateFilter_nil p]
  have hkb : ((List.replicate 8 (0 : Byte) ++ [Byte.ofNat p.k_]).getD 8 0).val = p.k_ := by
    rw [List.getD_eq_getElem?_getD, List.getElem?_append_right (by simp)]
    simp [Byte.ofNat_val]; omega
  simp only [BloomFilterPolicy.KeyMayMatch, List.length_append, List.length_replicate,
    List.length_singleton, Nat.add_sub_cancel]
  rw [hkb, if_neg (by omega), if_neg (by omega)]
  apply Bool.eq_false_iff.mpr
  intro hm
  rw [KeyMayMatch_probes_iff] at hm
  have h0 := hm 0 (by omega)
  refine not_bitSet_replicate 8 _ _ ?_ h0
  have := Nat.mod_lt (probeHash (BloomHash p.Hash key) (rotateDelta (BloomHash p.Hash key)) 0)
    (show 0 < 8 * 8 by decide)
  omega

/-- C7, as the code has it (skipped partitions never match, within the 32-bit
offsets of the block).  For the Bloom policy and every valid run whose filter
data is shorter than `2^32` bytes, if partition `i` has a filter and no key was
added during a block whose offset maps to `i`, the reader built from the
output of `Finish` answers false for every key and every block offset with
`block_offset / 2048 = i`. -/
theorem skipped_partitions_never_match (Hash : List Byte → Nat → Nat) (bits_per_key : Nat)
    (cs : List Call) (i : Nat) (hv : ValidRun cs)
    (hD : (filterData (NewBloomFilterPolicy Hash bits_per_key) cs).length < 2 ^ 32)
    (hi : i < numFilters cs) (hempty : partitionKeys cs i = []) :
    ∃ out, buildBlock (NewBloomFilterPolicy Hash bits_per_key) cs = some out ∧
      ∀ block_offset key, block_offset / 2048 = i →
        readBlock (NewBloomFilterPolicy Hash bits_per_key) out block_offset key = some false := by
  obtain ⟨out, hout, hread⟩ := readBlock_buildBlock (NewBloomFilterPolicy_AppendOnly Hash bits_per_key) cs hv.2 hD
  refine ⟨out, hout, ?_⟩
  intro block_offset key hoff
  rw [← kFilterBase_val] at hoff
  rw [hread block_offset key (by rw [hoff]; exact hi), hoff, hempty]
  congr 1

/-- C7 at partition 1 of the sample run. -/
theorem skipped_partitions_never_match_witness :
    (ValidRun sampleRun ∧
      (filterData (NewBloomFilterPolicy sampleHash 10) sampleRun).length < 2 ^ 32 ∧
      1 < numFilters sampleRun ∧ partitionKeys sampleRun 1 = []) ∧
    ∃ out, buildBlock (NewBloomFilterPolicy sampleHash 10) sampleRun = some out ∧
      ∀ block_offset key, block_offset / 2048 = 1 →
        readBlock (NewBloomFilterPolicy sampleHash 10) out block_offset key = some false :=
  ⟨⟨by decide, by decide, by decide, by decide⟩,
    skipped_partitions_never_match sampleHash 10 sampleRun 1 (by decide) (by decide)
      (by decide) (by decide)⟩

/-- C7 as stated fails: 24 empty keys are added to the block at offset 0
(1431655765 bits per key, a hash that sends every key to 64) and a block at
offset 4096 follows, which makes partition 1 an empty filter.  The filter of
partition 0 is `2^32` bytes long,
so both offsets wrap to 0 and the reader decodes bytes 4 to 11 of the bit
array as the entry of partition 1; byte 8 holds the first probe of the key, so
`start = 0 < limit` with `limit` beyond the array offset 0, and the reader
answers true. -/
theorem skipped_partitions_never_match_counterexample :
    ValidRun wideRunSkip ∧ 1 < numFilters wideRunSkip ∧ partitionKeys wideRunSkip 1 = [] ∧
    ∃ out, buildBlock (NewBloomFilterPolicy wideHash 1431655765) wideRunSkip = some out ∧
      2048 / 2048 = 1 ∧
      readBlock (NewBloomFilterPolicy wideHash 1431655765) out 2048 [] = some true := by
  refine ⟨by decide, by decide, by decide, _,
    buildBlock_eq_blockOf (NewBloomFilterPolicy_AppendOnly wideHash 1431655765) wideRunSkip
      (by decide), by decide, ?_⟩
  rw [wideRunSkip_filtersOf]
  exact readBlock_wrapped_skip _ _ [] wideFilter_length
    (fun i h1 h2 => wideFilter_zero i (by omega) (by omega)) wideFilter_byte8

/-- C8, as the code has it (number of filters after `Finish`).  For a policy
that appends its filter to the buffer and every valid run whose last block
offset maps to partition `p`, `Finish` writes `p + 1` offset entries if a key
was added during blocks of partition `p`, and `p` otherwise; a reader built
from the output has that number as `num_` when the filter data is shorter than
`2^32` bytes.  Keys added for blocks at offsets 0, 2047, 2048 and 5000 give
exactly 3 filters: the first for the keys at 0 and 2047, the second for the
key at 2048, the third for the key at 5000, and the reader hands them to the
policy for these block offsets in this order. -/
theorem filter_count_after_Finish (P : FilterPolicy) (hP : AppendOnly P) :
    (∀ cs, ValidRun cs →
      ∃ b, (FilterBlockBuilder.new P).run cs = some b ∧
        b.flush.filter_offsets_.length =
          (if partitionKeys cs (lastOffset 0 cs / 2048) = []
            then lastOffset 0 cs / 2048 else lastOffset 0 cs / 2048 + 1) ∧
        (b.flush.result_.length < 2 ^ 32 →
          ∃ r, FilterBlockReader.new P b.Finish = some r ∧
            r.num_ = b.flush.filter_offsets_.length)) ∧
    (∀ k1 k2 k3 k4 : Slice,
      ∃ b, (FilterBlockBuilder.new P).run
          [Call.StartBlock 0, Call.AddKey k1, Call.StartBlock 2047, Call.AddKey k2,
           Call.StartBlock 2048, Call.AddKey k3, Call.StartBlock 5000, Call.AddKey k4] = some b ∧
        b.flush.filter_offsets_.length = 3 ∧
        b.flush.result_ = P.CreateFilter [k1, k2] [] ++ P.CreateFilter [k3] []
          ++ P.CreateFilter [k4] [] ∧
        (b.flush.result_.length < 2 ^ 32 → ∀ key,
          readBlock P b.Finish 0 key = some (P.KeyMayMatch key (P.CreateFilter [k1, k2] [])) ∧
          readBlock P b.Finish 2047 key = some (P.KeyMayMatch key (P.CreateFilter [k1, k2] [])) ∧
          readBlock P b.Finish 2048 key = some (P.KeyMayMatch key (P.CreateFilter [k3] [])) ∧
          readBlock P b.Finish 5000 key = some (P.KeyMayMatch key (P.CreateFilter [k4] [])))) := by
  constructor
  · intro cs hv
    obtain ⟨b, hb, hr, ho⟩ := flush_spec hP cs hv.2
    have hlen : b.flush.filter_offsets_.length = numFilters cs := by
      rw [ho, length_offsetsFrom, length_filtersOf]
    refine ⟨b, hb, by rw [hlen, numFilters_eq], ?_⟩
    intro hD
    rw [hr] at hD
    rw [Finish_eq_blockOf hP cs hv.2 b hb, FilterBlockReader.new_blockOf_small P _ hD]
    exact ⟨_, rfl, by rw [hlen, length_filtersOf]⟩
  · intro k1 k2 k3 k4
    obtain ⟨hlast, hp0, hp1, hp2⟩ := four_blocks_partitions k1 k2 k3 k4
    generalize hcs : [Call.StartBlock 0, Call.AddKey k1, Call.StartBlock 2047, Call.AddKey k2,
      Call.StartBlock 2048, Call.AddKey k3, Call.StartBlock 5000, Call.AddKey k4] = cs
      at hlast hp0 hp1 hp2
    have hnd : nonDecreasing 0 cs := by
      rw [← hcs]
      simp only [nonDecreasing]
      decide
    obtain ⟨b, hb, hr, ho⟩ := flush_spec hP cs hnd
    have hfin := Finish_eq_blockOf hP cs hnd b hb
    have hfl : filtersOf P cs
        = [P.CreateFilter [k1, k2] [], P.CreateFilter [k3] [], P.CreateFilter [k4] []] :=
      filtersOf_three P cs _ _ _ hlast hp0 hp1 hp2 (by simp)
    rw [filterData, hfl] at hr
    rw [hfl] at ho hfin
    have hr2 : b.flush.result_ = P.CreateFilter [k1, k2] [] ++ P.CreateFilter [k3] []
        ++ P.CreateFilter [k4] [] := by
      rw [hr]
      simp only [List.flatten, List.append_nil, List.append_assoc]
    refine ⟨b, hb, by rw [ho, length_offsetsFrom]; rfl, hr2, ?_⟩
    intro hD key
    rw [hr] at hD
    rw [hfin]
    have i0 : (0 : Nat) / kFilterBase = 0 := by decide
    have i1 : (2047 : Nat) / kFilterBase = 0 := by decide
    have i2 : (2048 : Nat) / kFilterBase = 1 := by decide
    have i3 : (5000 : Nat) / kFilterBase = 2 := by decide
    refine ⟨?_, ?_, ?_, ?_⟩
    · exact readBlock_blockOf P _ hD 0 key _ (by rw [i0]; rfl)
    · exact readBlock_blockOf P _ hD 2047 key _ (by rw [i1]; rfl)
    · exact readBlock_blockOf P _ hD 2048 key _ (by rw [i2]; rfl)
    · exact readBlock_blockOf P _ hD 5000 key _ (by rw [i3]; rfl)

/-- C8 at the sample run. -/
theorem filter_count_after_Finish_witness :
    (AppendOnly samplePolicy ∧ ValidRun sampleRun) ∧
    ∃ b, (FilterBlockBuilder.new samplePolicy).run sampleRun = some b ∧
      b.flush.filter_offsets_.length =
        (if partitionKeys sampleRun (lastOffset 0 sampleRun / 2048) = []
          then lastOffset 0 sampleRun / 2048 else lastOffset 0 sampleRun / 2048 + 1) ∧
      (b.flush.result_.length < 2 ^ 32 →
        ∃ r, FilterBlockReader.new samplePolicy b.Finish = some r ∧
          r.num_ = b.flush.filter_offsets_.length) :=
  ⟨⟨NewBloomFilterPolicy_AppendOnly sampleHash 10, by decide⟩,
    (filter_count_after_Finish samplePolicy (NewBloomFilterPolicy_AppendOnly sampleHash 10)).1
      sampleRun (by decide)⟩

/-- C8 as stated fails for the reader: after the run with one filter of
`2^32` bytes, `Finish` writes 1 offset entry, but the array offset wraps to 0
and the reader takes the whole region for offsets: `num_ = 2^30 + 1`. -/
theorem filter_count_after_Finish_counterexample :
    ValidRun wideRun ∧
    ∃ b, (FilterBlockBuilder.new (NewBloomFilterPolicy wideHash 1431655765)).run wideRun
        = some b ∧
      b.flush.filter_offsets_.length = 1 ∧
      ∃ r, FilterBlockReader.new (NewBloomFilterPolicy wideHash 1431655765) b.Finish = some r ∧
        r.num_ = 1073741825 := by
  refine ⟨by decide, ?_⟩
  have hnd : nonDecreasing 0 wideRun := by decide
  have hP := NewBloomFilterPolicy_AppendOnly wideHash 1431655765
  obtain ⟨b, hb, hr, ho⟩ := flush_spec hP wideRun hnd
  refine ⟨b, hb, ?_, ?_⟩
  · rw [ho, length_offsetsFrom, wideRun_filtersOf, List.length_singleton]
  · rw [Finish_eq_blockOf hP wideRun hnd b hb, wideRun_filtersOf,
      FilterBlockReader.new_blockOf_wrapped _ _ wideFilter_length]
    exact ⟨_, rfl, rfl⟩

/-- C9 (layout of the block `Finish` returns).  For a policy that appends
its filter to the buffer and every valid run whose filters, `N` in number,
make up filter data `D` shorter than `2^32` bytes, `Finish` returns `D`, then
the `N` little-endian words giving the start of each filter within `D` in
generation order, then the word `|D|`, then the byte 11; the result has
`|D| + 4 N + 5` bytes and the reader constructor recovers `base_lg_ = 11`,
array offset `|D|` and `num_ = N`.  A fresh builder returns the bytes
`00 00 00 00 0b`. -/
theorem Finish_layout (P : FilterPolicy) :
    (∀ cs, AppendOnly P → ValidRun cs → (filterData P cs).length < 2 ^ 32 →
      ∃ out, buildBlock P cs = some out ∧
        out = filterData P cs
          ++ ((List.range (filtersOf P cs).length).map
                fun i => ((filtersOf P cs).take i).flatten.length).flatMap EncodeFixed32
          ++ EncodeFixed32 (filterData P cs).length ++ [11] ∧
        out.length = (filterData P cs).length + 4 * (filtersOf P cs).length + 5 ∧
        FilterBlockReader.new P out =
          some { policy_ := P, data_ := out, offset_ := (filterData P cs).length,
                 num_ := (filtersOf P cs).length, base_lg_ := 11 }) ∧
    buildBlock P [] = some [0, 0, 0, 0, 11] := by
  constructor
  · intro cs hP hv hD
    refine ⟨_, buildBlock_eq_blockOf hP cs hv.2, ?_, length_blockOf _,
      FilterBlockReader.new_blockOf_small P _ hD⟩
    unfold blockOf
    rw [offsetWords_eq _ hD, ← List.append_assoc]
    rfl
  · simp only [buildBlock, FilterBlockBuilder.run, FilterBlockBuilder.new,
      FilterBlockBuilder.Finish, FilterBlockBuilder.flush, FilterBlockBuilder.putOffsets,
      PutFixed32, EncodeFixed32, List.isEmpty_nil, if_true, List.length_nil, List.nil_append,
      List.cons_append, Option.some.injEq]
    decide

/-- C9 at the sample run. -/
theorem Finish_layout_witness :
    (AppendOnly samplePolicy ∧ ValidRun sampleRun ∧
      (filterData samplePolicy sampleRun).length < 2 ^ 32) ∧
    ∃ out, buildBlock samplePolicy sampleRun = some out ∧
      out = filterData samplePolicy sampleRun
        ++ ((List.range (filtersOf samplePolicy sampleRun).length).map
              fun i => ((filtersOf samplePolicy sampleRun).take i).flatten.length).flatMap
            EncodeFixed32
        ++ EncodeFixed32 (filterData samplePolicy sampleRun).length ++ [11] ∧
      out.length = (filterData samplePolicy sampleRun).length
        + 4 * (filtersOf samplePolicy sampleRun).length + 5 ∧
      FilterBlockReader.new samplePolicy out =
        some { policy_ := samplePolicy, data_ := out,
               offset_ := (filterData samplePolicy sampleRun).length,
               num_ := (filtersOf samplePolicy sampleRun).length, base_lg_ := 11 } :=
  ⟨⟨NewBloomFilterPolicy_AppendOnly sampleHash 10, by decide, by decide⟩,
    (Finish_layout samplePolicy).1 sampleRun (NewBloomFilterPolicy_AppendOnly sampleHash 10)
      (by decide) (by decide)⟩

/-- C10 (shape of the output of `CreateFilter`).  For every buffer `dst`,
every key list and every `bits_per_key ≥ 1` (both within the range of `int`),
the buffer after `CreateFilter` is the old `dst` followed by exactly
`⌈max(64, n * bits_per_key) / 8⌉ + 1` new bytes, the last of which is the probe
count `k_` of the policy, and `1 ≤ k_ ≤ 30`. -/
theorem bloom_CreateFilter_shape (Hash : List Byte → Nat → Nat) (bits_per_key : Nat)
    (keys : List Slice) (dst : List Byte) (_h1 : 1 ≤ bits_per_key)
    (hb : bits_per_key < 2 ^ 31) (hn : keys.length < 2 ^ 31) :
    ∃ added : List Byte,
      (BloomFilterPolicy.new Hash bits_per_key).CreateFilter keys dst = dst ++ added ∧
      added.length = ⌈((max 64 (keys.length * bits_per_key) : Nat) : ℚ) / 8⌉₊ + 1 ∧
      (∃ b, added.getLast? = some b ∧ b.val = (BloomFilterPolicy.new Hash bits_per_key).k_) ∧
      1 ≤ (BloomFilterPolicy.new Hash bits_per_key).k_ ∧
      (BloomFilterPolicy.new Hash bits_per_key).k_ ≤ 30 := by
  obtain ⟨hk1, hk30⟩ := new_k_bounds Hash bits_per_key
  have hb2 : (BloomFilterPolicy.new Hash bits_per_key).bits_per_key_ < 2 ^ 31 := hb
  have hpos := arrayBytes_pos _ keys.length hn hb2
  have heq := arrayBytes_eq _ keys.length hn hb2
  refine ⟨_, CreateFilter_eq _ keys dst (by omega), ?_,
    ⟨Byte.ofNat (BloomFilterPolicy.new Hash bits_per_key).k_, ?_, ?_⟩, hk1, hk30⟩
  · rw [List.length_append, length_bitArray, heq, ceil_div_eight]
    rfl
  · simp
  · exact Byte.ofNat_val_of_lt (by omega)

/-- C10 at three keys with ten bits per key and a buffer of two bytes. -/
theorem bloom_CreateFilter_shape_witness :
    (1 ≤ 10 ∧ 10 < 2 ^ 31 ∧ ([[1], [2, 3], []] : List Slice).length < 2 ^ 31) ∧
    ∃ added : List Byte,
      (BloomFilterPolicy.new sampleHash 10).CreateFilter [[1], [2, 3], []] [5, 6]
        = [5, 6] ++ added ∧
      added.length = ⌈((max 64 (([[1], [2, 3], []] : List Slice).length * 10) : Nat) : ℚ) / 8⌉₊ + 1 ∧
      (∃ b, added.getLast? = some b ∧ b.val = (BloomFilterPolicy.new sampleHash 10).k_) ∧
      1 ≤ (BloomFilterPolicy.new sampleHash 10).k_ ∧
      (BloomFilterPolicy.new sampleHash 10).k_ ≤ 30 :=
  ⟨⟨by decide, by decide, by decide⟩,
    bloom_CreateFilter_shape sampleHash 10 [[1], [2, 3], []] [5, 6]
      (by decide) (by decide) (by decide)⟩
/-- C11 (unknown encoding fails open).  For every key and every filter of at
least two bytes whose last byte, read as an unsigned value, is greater than 30,
`KeyMayMatch` of the Bloom policy returns true, whatever the other bytes are. -/
theorem bloom_unknown_encoding (p : BloomFilterPolicy) (key : Slice) (filter : List Byte)
    (b : Byte) (hlen : 2 ≤ filter.length) (hlast : filter.getLast? = some b)
    (hb : 30 < b.val) : p.KeyMayMatch key filter = true := by
  simp only [BloomFilterPolicy.KeyMayMatch]
  rw [if_neg (by omega), getLast?_eq_getD filter b hlast, if_pos hb]

/-- C11 at a filter whose last byte is 200 and whose bit array is all zero. -/
theorem bloom_unknown_encoding_witness :
    (2 ≤ ([0, 0, 200] : List Byte).length ∧
      ([0, 0, 200] : List Byte).getLast? = some 200 ∧ 30 < (200 : Byte).val) ∧
    (BloomFilterPolicy.new sampleHash 10).KeyMayMatch [1] [0, 0, 200] = true :=
  ⟨⟨by decide, by decide, by decide⟩,
    bloom_unknown_encoding (BloomFilterPolicy.new sampleHash 10) [1] [0, 0, 200] 200
      (by decide) (by decide) (by decide)⟩

/-- C12 (probe count, as the code computes it).  For every `bits_per_key ≥ 0`
the probe count `k_` set by the constructor is `⌊bits_per_key * 0.69⌋` clamped
to the interval `[1, 30]`: the constant of the code is 0.69, not `ln 2`. -/
theorem bloom_probe_count (Hash : List Byte → Nat → Nat) (bits_per_key : Nat) :
    (BloomFilterPolicy.new Hash bits_per_key).k_
      = max 1 (min 30 ⌊(bits_per_key : ℚ) * (69 / 100)⌋₊) := by
  rw [floor_mul_frac]
  simp only [BloomFilterPolicy.new]
  split <;> split <;> omega

/-- C12 as written fails at `bits_per_key = 13`: the constructor computes
`⌊13 * 0.69⌋ = 8` probes, while `⌊13 * ln 2⌋` clamped to `[1, 30]` is 9. -/
theorem bloom_probe_count_counterexample :
    (BloomFilterPolicy.new sampleHash 13).k_ = 8 ∧
      max 1 (min 30 ⌊((13 : Nat) : ℝ) * Real.log 2⌋₊) = 9 := by
  constructor
  · decide
  · have h1 := Real.log_two_gt_d9
    have h2 := Real.log_two_lt_d9
    have hf : ⌊((13 : Nat) : ℝ) * Real.log 2⌋₊ = 9 := by
      rw [Nat.floor_eq_iff (by positivity)]
      constructor
      · push_cast; linarith
      · push_cast; linarith
    rw [hf]
    rfl

/-- C13 (offset-array invariant).  For every valid builder run with the Bloom
policy whose filter data is shorter than `2 ^ 32` bytes, `Finish` writes the
filter data, the recorded offsets, the array offset and the byte 11; the
offsets are non-decreasing, each is at most the array offset, the array offset
is the length of the filter data, and entry `i` equals entry `i + 1` (the array
offset, for the last entry) exactly when partition `i` received no keys. -/
theorem offset_array_invariant (Hash : List Byte → Nat → Nat) (bits_per_key : Nat)
    (cs : List Call) (hv : ValidRun cs)
    (hD : (filterData (NewBloomFilterPolicy Hash bits_per_key) cs).length < 2 ^ 32) :
    ∃ b, (FilterBlockBuilder.new (NewBloomFilterPolicy Hash bits_per_key)).run cs = some b ∧
      b.Finish = b.flush.result_ ++ b.flush.filter_offsets_.flatMap EncodeFixed32
        ++ EncodeFixed32 (b.flush.result_.length % 2 ^ 32) ++ [11] ∧
      List.Pairwise (fun x y => x ≤ y) b.flush.filter_offsets_ ∧
      (∀ o ∈ b.flush.filter_offsets_, o ≤ b.flush.result_.length % 2 ^ 32) ∧
      b.flush.result_.length % 2 ^ 32 = b.flush.result_.length ∧
      ∀ i, i < b.flush.filter_offsets_.length →
        ((b.flush.filter_offsets_ ++ [b.flush.result_.length % 2 ^ 32])[i]?
          = (b.flush.filter_offsets_ ++ [b.flush.result_.length % 2 ^ 32])[i + 1]?
          ↔ partitionKeys cs i = []) := by
  obtain ⟨b, hb, hr, ho⟩ := flush_spec (NewBloomFilterPolicy_AppendOnly Hash bits_per_key) cs hv.2
  have hD2 : (filtersOf (NewBloomFilterPolicy Hash bits_per_key) cs).flatten.length < 2 ^ 32 := hD
  obtain ⟨h1, h2, h3⟩ := offsetWords_invariant _ hD2
  have hr2 : b.flush.result_ = (filtersOf (NewBloomFilterPolicy Hash bits_per_key) cs).flatten :=
    hr
  refine ⟨b, hb, Finish_eq b, ?_, ?_, ?_, ?_⟩
  · rw [ho]; exact h1
  · rw [ho, hr2]; exact h2
  · rw [hr2]; exact Nat.mod_eq_of_lt hD2
  · intro i hi
    rw [ho, length_offsetsFrom, length_filtersOf] at hi
    rw [ho, hr2, h3 i _ (filtersOf_getElem _ cs i hi)]
    exact filterOf_bloom_eq_nil_iff Hash bits_per_key _

/-- C13 at a run with keys in partitions 0 and 2 and none in partition 1. -/
theorem offset_array_invariant_witness :
    (ValidRun sampleRun ∧
      (filterData (NewBloomFilterPolicy sampleHash 10) sampleRun).length < 2 ^ 32) ∧
    ∃ b, (FilterBlockBuilder.new (NewBloomFilterPolicy sampleHash 10)).run sampleRun = some b ∧
      b.Finish = b.flush.result_ ++ b.flush.filter_offsets_.flatMap EncodeFixed32
        ++ EncodeFixed32 (b.flush.result_.length % 2 ^ 32) ++ [11] ∧
      List.Pairwise (fun x y => x ≤ y) b.flush.filter_offsets_ ∧
      (∀ o ∈ b.flush.filter_offsets_, o ≤ b.flush.result_.length % 2 ^ 32) ∧
      b.flush.result_.length % 2 ^ 32 = b.flush.result_.length ∧
      ∀ i, i < b.flush.filter_offsets_.length →
        ((b.flush.filter_offsets_ ++ [b.flush.result_.length % 2 ^ 32])[i]?
          = (b.flush.filter_offsets_ ++ [b.flush.result_.length % 2 ^ 32])[i + 1]?
          ↔ partitionKeys sampleRun i = []) :=
  ⟨⟨by decide, by decide⟩,
    offset_array_invariant sampleHash 10 sampleRun (by decide) (by decide)⟩

/-- C13 as written fails once the filter data reaches `2 ^ 32` bytes: in a valid
run whose single partition received 24 keys and whose filter is exactly
`2 ^ 32` bytes long, the only offset entry is 0 and the 32-bit array offset
wraps to 0, so entry 0 equals the array offset although partition 0 has keys. -/
theorem offset_array_invariant_counterexample :
    ValidRun wideRun ∧ partitionKeys wideRun 0 ≠ [] ∧
    ∃ b, (FilterBlockBuilder.new (NewBloomFilterPolicy wideHash 1431655765)).run wideRun
        = some b ∧
      b.flush.result_.length = 2 ^ 32 ∧
      b.flush.filter_offsets_ = [0] ∧ b.flush.result_.length % 2 ^ 32 = 0 ∧
      (b.flush.filter_offsets_ ++ [b.flush.result_.length % 2 ^ 32])[0]?
        = (b.flush.filter_offsets_ ++ [b.flush.result_.length % 2 ^ 32])[0 + 1]? := by
  refine ⟨by decide, by decide, ?_⟩
  have hnd : nonDecreasing 0 wideRun := by decide
  obtain ⟨b, hb, hr, ho⟩ :=
    flush_spec (NewBloomFilterPolicy_AppendOnly wideHash 1431655765) wideRun hnd
  have hlen : b.flush.result_.length = 2 ^ 32 := by
    rw [hr, filterData, wideRun_filtersOf, List.flatten_singleton, wideFilter_length]
  have hoff : b.flush.filter_offsets_ = [0] := by
    rw [ho, wideRun_filtersOf, offsetsFrom_single]
  refine ⟨b, hb, hlen, hoff, ?_, ?_⟩
  · rw [hlen]
    exact Nat.mod_self _
  · rw [hoff, hlen]
    decide

/-- C16 (exact bit set).  For every key list and every `bits_per_key ≥ 1` (both
within the range of `int`), the filter `CreateFilter` appends is a bit array of
`8 * ⌈max(64, n * bits_per_key) / 8⌉` bits followed by the byte `k_`; bit `q` of
the array is set exactly when `q = ((h + j * delta) mod 2 ^ 32) mod bits` for
some key of the list and some `j < k_`, where `h` is the 32-bit hash of the key
and `delta = (h >> 17) | (h << 15)` in 32-bit arithmetic; and `KeyMayMatch` on
that filter returns true exactly when all `k_` probe positions of the queried
key are set. -/
theorem bloom_exact_bit_set (Hash : List Byte → Nat → Nat) (bits_per_key : Nat)
    (keys : List Slice) (_h1 : 1 ≤ bits_per_key) (hb : bits_per_key < 2 ^ 31)
    (hn : keys.length < 2 ^ 31) :
    ∃ array : List Byte,
      (BloomFilterPolicy.new Hash bits_per_key).CreateFilter keys []
        = array ++ [Byte.ofNat (BloomFilterPolicy.new Hash bits_per_key).k_] ∧
      array.length * 8 = 8 * ⌈((max 64 (keys.length * bits_per_key) : Nat) : ℚ) / 8⌉₊ ∧
      (∀ q, bitSet array q ↔ ∃ key ∈ keys, ∃ j, j < (BloomFilterPolicy.new Hash bits_per_key).k_ ∧
        q = ((BloomHash Hash key
              + j * (((BloomHash Hash key >>> 17) ||| (BloomHash Hash key <<< 15)) % 2 ^ 32))
              % 2 ^ 32) % (array.length * 8)) ∧
      (∀ key, (BloomFilterPolicy.new Hash bits_per_key).KeyMayMatch key
          ((BloomFilterPolicy.new Hash bits_per_key).CreateFilter keys []) = true ↔
        ∀ j, j < (BloomFilterPolicy.new Hash bits_per_key).k_ →
          bitSet array (((BloomHash Hash key
              + j * (((BloomHash Hash key >>> 17) ||| (BloomHash Hash key <<< 15)) % 2 ^ 32))
              % 2 ^ 32) % (array.length * 8))) := by
  obtain ⟨hk1, hk30⟩ := new_k_bounds Hash bits_per_key
  have hb2 : (BloomFilterPolicy.new Hash bits_per_key).bits_per_key_ < 2 ^ 31 := hb
  have hpos := arrayBytes_pos _ keys.length hn hb2
  have heq := arrayBytes_eq _ keys.length hn hb2
  have hlen := length_bitArray (BloomFilterPolicy.new Hash bits_per_key) keys
  have hcf := CreateFilter_eq (BloomFilterPolicy.new Hash bits_per_key) keys [] (by omega)
  rw [List.nil_append] at hcf
  have hclosed : ∀ (key : Slice) (j : Nat),
      probeHash (BloomHash Hash key) (rotateDelta (BloomHash Hash key)) j
        = (BloomHash Hash key
            + j * (((BloomHash Hash key >>> 17) ||| (BloomHash Hash key <<< 15)) % 2 ^ 32))
            % 2 ^ 32 :=
    fun key j => probeHash_eq _ _ (BloomHash_lt Hash key) j
  refine ⟨_, hcf, ?_, ?_, ?_⟩
  · rw [hlen, heq, ceil_div_eight, Nat.mul_comm]
    rfl
  · intro q
    rw [bitSet_bitArray_iff _ _ _ (by omega), hlen]
    simp only [← hclosed]
    rfl
  · intro key
    rw [hcf]
    have hkb : (((BloomFilterPolicy.new Hash bits_per_key).bitArray keys
        ++ [Byte.ofNat (BloomFilterPolicy.new Hash bits_per_key).k_]).getD
          ((BloomFilterPolicy.new Hash bits_per_key).arrayBytes keys.length) 0).val
        = (BloomFilterPolicy.new Hash bits_per_key).k_ := by
      rw [List.getD_eq_getElem?_getD, List.getElem?_append_right (by omega), hlen]
      simp [Byte.ofNat_val]
      omega
    simp only [BloomFilterPolicy.KeyMayMatch, List.length_append, List.length_singleton, hlen,
      Nat.add_sub_cancel]
    rw [if_neg (by omega), hkb, if_neg (by omega), KeyMayMatch_probes_iff]
    have hH : (BloomFilterPolicy.new Hash bits_per_key).Hash = Hash := rfl
    rw [hH]
    simp only [← hclosed]
    constructor
    · intro h j hj
      have hlt := Nat.mod_lt (probeHash (BloomHash Hash key) (rotateDelta (BloomHash Hash key)) j)
        (show 0 < (BloomFilterPolicy.new Hash bits_per_key).arrayBytes keys.length * 8 by omega)
      exact (bitSet_append_left _ _ _ (by rw [hlen]; omega)).mp (h j hj)
    · intro h j hj
      have hlt := Nat.mod_lt (probeHash (BloomHash Hash key) (rotateDelta (BloomHash Hash key)) j)
        (show 0 < (BloomFilterPolicy.new Hash bits_per_key).arrayBytes keys.length * 8 by omega)
      exact (bitSet_append_left _ _ _ (by rw [hlen]; omega)).mpr (h j hj)

/-- C16 at two keys with ten bits per key. -/
theorem bloom_exact_bit_set_witness :
    (1 ≤ 10 ∧ 10 < 2 ^ 31 ∧ ([[1], [2, 3]] : List Slice).length < 2 ^ 31) ∧
    ∃ array : List Byte,
      (BloomFilterPolicy.new sampleHash 10).CreateFilter ([[1], [2, 3]] : List Slice) []
        = array ++ [Byte.ofNat (BloomFilterPolicy.new sampleHash 10).k_] ∧
      array.length * 8 = 8 * ⌈((max 64 (([[1], [2, 3]] : List Slice).length * 10) : Nat) : ℚ) / 8⌉₊ ∧
      (∀ q, bitSet array q ↔ ∃ key ∈ ([[1], [2, 3]] : List Slice), ∃ j, j < (BloomFilterPolicy.new sampleHash 10).k_ ∧
        q = ((BloomHash sampleHash key
              + j * (((BloomHash sampleHash key >>> 17) ||| (BloomHash sampleHash key <<< 15)) % 2 ^ 32))
              % 2 ^ 32) % (array.length * 8)) ∧
      (∀ key, (BloomFilterPolicy.new sampleHash 10).KeyMayMatch key
          ((BloomFilterPolicy.new sampleHash 10).CreateFilter ([[1], [2, 3]] : List Slice) []) = true ↔
        ∀ j, j < (BloomFilterPolicy.new sampleHash 10).k_ →
          bitSet array (((BloomHash sampleHash key
              + j * (((BloomHash sampleHash key >>> 17) ||| (BloomHash sampleHash key <<< 15)) % 2 ^ 32))
              % 2 ^ 32) % (array.length * 8))) :=
  ⟨⟨by decide, by decide, by decide⟩,
    bloom_exact_bit_set sampleHash 10 [[1], [2, 3]] (by decide) (by decide) (by decide)⟩

/-- C17 (order independence).  For every Bloom policy, every buffer and every
two key lists that are permutations of each other, `CreateFilter` produces the
same bytes; hence two valid builder runs with the same last block offset whose
partitions hold the same keys up to order return the same bytes from `Finish`. -/
theorem bloom_order_independence :
    (∀ (p : BloomFilterPolicy) (keys keys' : List Slice) (dst : List Byte),
      keys.Perm keys' → p.CreateFilter keys dst = p.CreateFilter keys' dst) ∧
    (∀ (Hash : List Byte → Nat → Nat) (bits_per_key : Nat) (cs cs' : List Call),
      ValidRun cs → ValidRun cs' → lastOffset 0 cs = lastOffset 0 cs' →
      (∀ i, (partitionKeys cs i).Perm (partitionKeys cs' i)) →
      buildBlock (NewBloomFilterPolicy Hash bits_per_key) cs
        = buildBlock (NewBloomFilterPolicy Hash bits_per_key) cs') := by
  constructor
  · exact CreateFilter_perm
  · intro Hash bits_per_key cs cs' hv hv' hlast hperm
    have hP := NewBloomFilterPolicy_AppendOnly Hash bits_per_key
    rw [buildBlock_eq_blockOf hP cs hv.2, buildBlock_eq_blockOf hP cs' hv'.2]
    congr 2
    have hn : numFilters cs = numFilters cs' := by
      unfold numFilters
      rw [← hlast]
      have hp := hperm (lastOffset 0 cs / kFilterBase)
      cases h1 : partitionKeys cs (lastOffset 0 cs / kFilterBase) with
      | nil =>
          rw [h1] at hp
          rw [List.Perm.nil_eq hp]
      | cons k ks =>
          rw [h1] at hp
          cases h2 : partitionKeys cs' (lastOffset 0 cs / kFilterBase) with
          | nil => rw [h2] at hp; exact absurd (List.Perm.eq_nil hp) (by simp)
          | cons k' ks' => rfl
    unfold filtersOf
    rw [hn]
    apply List.map_congr_left
    intro i _
    exact filterOf_bloom_perm Hash bits_per_key _ _ (hperm i)

/-- C17 at a partition that receives the keys `[1]` and `[2, 3]` in either
order. -/
theorem bloom_order_independence_witness :
    (BloomFilterPolicy.new sampleHash 10).CreateFilter [[1], [2, 3]] [9]
      = (BloomFilterPolicy.new sampleHash 10).CreateFilter [[2, 3], [1]] [9] ∧
    buildBlock (NewBloomFilterPolicy sampleHash 10)
        [Call.StartBlock 0, Call.AddKey [1], Call.AddKey [2, 3]]
      = buildBlock (NewBloomFilterPolicy sampleHash 10)
        [Call.StartBlock 0, Call.AddKey [2, 3], Call.AddKey [1]] :=
  ⟨bloom_order_independence.1 (BloomFilterPolicy.new sampleHash 10) [[1], [2, 3]]
      [[2, 3], [1]] [9] (List.Perm.swap _ _ _),
    bloom_order_independence.2 sampleHash 10
      [Call.StartBlock 0, Call.AddKey [1], Call.AddKey [2, 3]]
      [Call.StartBlock 0, Call.AddKey [2, 3], Call.AddKey [1]]
      (by decide) (by decide) (by decide)
      (fun i => by
        cases i with
        | zero => exact List.Perm.swap _ _ _
        | succ n =>
            have h0 : lastOffset 0 [Call.StartBlock 0, Call.AddKey [1], Call.AddKey [2, 3]]
                / kFilterBase = 0 := by decide
            have h1 : lastOffset 0 [Call.StartBlock 0, Call.AddKey [2, 3], Call.AddKey [1]]
                / kFilterBase = 0 := by decide
            rw [partitionKeys_eq_nil _ (by decide) _ (by rw [h0]; omega),
              partitionKeys_eq_nil _ (by decide) _ (by rw [h1]; omega)])⟩

/-- C18 (StartBlock catch-up).  In every sequence of calls on a fresh builder
whose `StartBlock` offsets are non-decreasing, at every call `StartBlock
block_offset` the number of filters already generated is at most
`block_offset / 2048`, the call returns (the loop reaches its result with any
fuel of at least the number of missing filters), afterwards the number of
generated filters is `block_offset / 2048`, nothing changes when no filter was
missing, and otherwise the first generated filter holds all pending keys, the
further ones are empty (they start at the end of the filter data) and no key is
pending afterwards. -/
theorem StartBlock_catch_up (P : FilterPolicy) (hP : AppendOnly P) (cs pre rest : List Call)
    (block_offset : Nat) (hnd : nonDecreasing 0 cs)
    (hcs : cs = pre ++ Call.StartBlock block_offset :: rest) :
    ∃ (b0 : FilterBlockBuilder) (done : List (List Slice)) (pending : List Slice),
      (FilterBlockBuilder.new P).run pre = some b0 ∧ Rep P b0 done pending ∧
      b0.filter_offsets_.length ≤ block_offset / 2048 ∧
      ∃ b1, b0.StartBlock block_offset = some b1 ∧
        (∀ fuel, block_offset / 2048 - b0.filter_offsets_.length ≤ fuel →
          FilterBlockBuilder.StartBlock.loop (block_offset / 2048) fuel b0 = b1) ∧
        b1.filter_offsets_.length = block_offset / 2048 ∧
        (b0.filter_offsets_.length = block_offset / 2048 → b1 = b0) ∧
        (b0.filter_offsets_.length < block_offset / 2048 →
          Rep P b1 (done ++ pending ::
            List.replicate (block_offset / 2048 - b0.filter_offsets_.length - 1) []) [] ∧
          b1.result_ = b0.result_ ++ filterOf P pending ∧
          b1.filter_offsets_ = b0.filter_offsets_ ++ (b0.result_.length % 2 ^ 32) ::
            List.replicate (block_offset / 2048 - b0.filter_offsets_.length - 1)
              (b1.result_.length % 2 ^ 32) ∧
          b1.start_ = [] ∧ b1.keys_ = []) := by
  have hnd2 : nonDecreasing 0 (pre ++ [Call.StartBlock block_offset]) := by
    apply nonDecreasing_append_left 0 _ rest
    rw [List.append_assoc]
    rw [hcs] at hnd
    exact hnd
  rw [nonDecreasing_append_StartBlock] at hnd2
  obtain ⟨b0, hb0, hrep⟩ := run_spec hP pre hnd2.1
  have hlen := hrep.length_offsets
  simp only [List.length_map, List.length_range] at hlen
  have hle : b0.filter_offsets_.length ≤ block_offset / 2048 := by
    rw [hlen, kFilterBase_val]
    exact Nat.div_le_div_right hnd2.2
  exact ⟨b0, _, _, hb0, hrep, hle, StartBlock_spec hP b0 _ _ block_offset hrep hle⟩

/-- C18 at the call `StartBlock 5000` that follows two keys added for the block
at offset 0. -/
theorem StartBlock_catch_up_witness :
    (AppendOnly (NewBloomFilterPolicy sampleHash 10) ∧ nonDecreasing 0 sampleRun ∧
      sampleRun = [Call.StartBlock 0, Call.AddKey [1], Call.AddKey [2, 3]]
        ++ Call.StartBlock 5000 :: [Call.AddKey [4]]) ∧
    ∃ (b0 : FilterBlockBuilder) (done : List (List Slice)) (pending : List Slice),
      (FilterBlockBuilder.new (NewBloomFilterPolicy sampleHash 10)).run [Call.StartBlock 0, Call.AddKey [1], Call.AddKey [2, 3]] = some b0 ∧ Rep (NewBloomFilterPolicy sampleHash 10) b0 done pending ∧
      b0.filter_offsets_.length ≤ 5000 / 2048 ∧
      ∃ b1, b0.StartBlock 5000 = some b1 ∧
        (∀ fuel, 5000 / 2048 - b0.filter_offsets_.length ≤ fuel →
          FilterBlockBuilder.StartBlock.loop (5000 / 2048) fuel b0 = b1) ∧
        b1.filter_offsets_.length = 5000 / 2048 ∧
        (b0.filter_offsets_.length = 5000 / 2048 → b1 = b0) ∧
        (b0.filter_offsets_.length < 5000 / 2048 →
          Rep (NewBloomFilterPolicy sampleHash 10) b1 (done ++ pending ::
            List.replicate (5000 / 2048 - b0.filter_offsets_.length - 1) []) [] ∧
          b1.result_ = b0.result_ ++ filterOf (NewBloomFilterPolicy sampleHash 10) pending ∧
          b1.filter_offsets_ = b0.filter_offsets_ ++ (b0.result_.length % 2 ^ 32) ::
            List.replicate (5000 / 2048 - b0.filter_offsets_.length - 1)
              (b1.result_.length % 2 ^ 32) ∧
          b1.start_ = [] ∧ b1.keys_ = []) :=
  ⟨⟨NewBloomFilterPolicy_AppendOnly sampleHash 10, by decide, rfl⟩,
    StartBlock_catch_up (NewBloomFilterPolicy sampleHash 10)
      (NewBloomFilterPolicy_AppendOnly sampleHash 10) sampleRun
      [Call.StartBlock 0, Call.AddKey [1], Call.AddKey [2, 3]] [Call.AddKey [4]] 5000
      (by decide) rfl⟩

/-- C19 (reader reads stay in bounds).  For every byte region, every policy,
every `block_offset` and every key, the reader constructor and `KeyMayMatch`
return a result (no read leaves the region, and a boolean is returned), and so
does the body of `KeyMayMatch` at every index, whatever value the shift
`block_offset >> base_lg_` has; the trailing five bytes read by the constructor,
the eight bytes of the two offset entries at every index below `num_`, and the
slice `[start, limit)` handed to the policy all lie inside the region. -/
theorem reader_reads_in_bounds (policy : FilterPolicy) (contents : Slice)
    (block_offset : Nat) (key : Slice) :
    ∃ r, FilterBlockReader.new policy contents = some r ∧
      (∃ answer, r.KeyMayMatch block_offset key = some answer) ∧
      (∀ index, ∃ answer, FilterBlockReader.KeyMayMatch.lookup r index key = some answer) ∧
      (5 ≤ contents.length →
        (∃ lg, contents[contents.length - 1]? = some lg) ∧
        contents.length - 5 + 4 ≤ contents.length) ∧
      (∀ index, index < r.num_ →
        r.data_ = contents ∧
        r.offset_ + index * 4 + 8 ≤ contents.length ∧
        ∃ start limit,
          DecodeFixed32 contents (r.offset_ + index * 4) = some start ∧
          DecodeFixed32 contents (r.offset_ + index * 4 + 4) = some limit ∧
          (start ≤ limit → limit ≤ r.offset_ →
            limit ≤ contents.length ∧
            subSlice contents start limit
              = some ((contents.drop start).take (limit - start)))) := by
  obtain ⟨r, hnew⟩ := FilterBlockReader.new_isSome policy contents
  refine ⟨r, hnew, ?_, ?_, ?_, ?_⟩
  · exact FilterBlockReader.KeyMayMatch.lookup_isSome policy contents r hnew _ key
  · exact fun index => FilterBlockReader.KeyMayMatch.lookup_isSome policy contents r hnew index key
  · intro h5
    exact ⟨getElem?_isSome contents _ (by omega), by omega⟩
  · intro index hidx
    obtain ⟨hd, hb, hb2⟩ := FilterBlockReader.entries_in_bounds policy contents r hnew _ hidx
    obtain ⟨start, hs, _⟩ := DecodeFixed32_isSome contents (r.offset_ + index * 4) (by omega)
    obtain ⟨limit, hl, _⟩ := DecodeFixed32_isSome contents (r.offset_ + index * 4 + 4)
      (by omega)
    refine ⟨hd, hb, start, limit, hs, hl, ?_⟩
    intro _ hlim
    exact ⟨by omega, subSlice_eq _ _ _ (by omega)⟩

/-- C19 at a region with two entries whose last byte is 200, where `base_lg_`
is `2 ^ 64 - 56` and the shift count is 8. -/
theorem reader_reads_in_bounds_witness :
    ∃ r, FilterBlockReader.new exactPolicy [5, 6, 0, 0, 0, 0, 2, 0, 0, 0, 2, 0, 0, 0, 200] = some r ∧
      (∃ answer, r.KeyMayMatch 256 [5, 6] = some answer) ∧
      (∀ index, ∃ answer, FilterBlockReader.KeyMayMatch.lookup r index [5, 6] = some answer) ∧
      (5 ≤ ([5, 6, 0, 0, 0, 0, 2, 0, 0, 0, 2, 0, 0, 0, 200] : List Byte).length →
        (∃ lg, ([5, 6, 0, 0, 0, 0, 2, 0, 0, 0, 2, 0, 0, 0, 200] : List Byte)[([5, 6, 0, 0, 0, 0, 2, 0, 0, 0, 2, 0, 0, 0, 200] : List Byte).length - 1]? = some lg) ∧
        ([5, 6, 0, 0, 0, 0, 2, 0, 0, 0, 2, 0, 0, 0, 200] : List Byte).length - 5 + 4 ≤ ([5, 6, 0, 0, 0, 0, 2, 0, 0, 0, 2, 0, 0, 0, 200] : List Byte).length) ∧
      (∀ index, index < r.num_ →
        r.data_ = [5, 6, 0, 0, 0, 0, 2, 0, 0, 0, 2, 0, 0, 0, 200] ∧
        r.offset_ + index * 4 + 8 ≤ ([5, 6, 0, 0, 0, 0, 2, 0, 0, 0, 2, 0, 0, 0, 200] : List Byte).length ∧
        ∃ start limit,
          DecodeFixed32 [5, 6, 0, 0, 0, 0, 2, 0, 0, 0, 2, 0, 0, 0, 200] (r.offset_ + index * 4) = some start ∧
          DecodeFixed32 [5, 6, 0, 0, 0, 0, 2, 0, 0, 0, 2, 0, 0, 0, 200] (r.offset_ + index * 4 + 4) = some limit ∧
          (start ≤ limit → limit ≤ r.offset_ →
            limit ≤ ([5, 6, 0, 0, 0, 0, 2, 0, 0, 0, 2, 0, 0, 0, 200] : List Byte).length ∧
            subSlice [5, 6, 0, 0, 0, 0, 2, 0, 0, 0, 2, 0, 0, 0, 200] start limit
              = some ((([5, 6, 0, 0, 0, 0, 2, 0, 0, 0, 2, 0, 0, 0, 200] : List Byte).drop start).take (limit - start)))) :=
  reader_reads_in_bounds exactPolicy [5, 6, 0, 0, 0, 0, 2, 0, 0, 0, 2, 0, 0, 0, 200] 256 [5, 6]

/-- C20 (Bloom arithmetic is guarded).  For every key list, every
`bits_per_key ≥ 1` (both within the range of `int`) and every buffer, the
modulus `bits` of `CreateFilter` is at least 64, `CreateFilter` is the sequence
of its bit writes applied to the buffer extended by the zeroed array and the
byte `k_`, and every written byte index `bitpos / 8` is below the number of
array bytes just appended; for every filter of at least two bytes and every key,
the modulus of `KeyMayMatch` is `8 * (len - 1) > 0`, `KeyMayMatch` is the test of
its probe positions, and every byte index it reads is at most `len - 2`. -/
theorem bloom_arithmetic_guarded :
    (∀ (Hash : List Byte → Nat → Nat) (bits_per_key : Nat) (keys : List Slice)
        (dst : List Byte),
      1 ≤ bits_per_key → bits_per_key < 2 ^ 31 → keys.length < 2 ^ 31 →
      64 ≤ (BloomFilterPolicy.new Hash bits_per_key).arrayBytes keys.length * 8 ∧
      (BloomFilterPolicy.new Hash bits_per_key).CreateFilter keys dst
        = (CreateFilter.positions (BloomFilterPolicy.new Hash bits_per_key)
            ((BloomFilterPolicy.new Hash bits_per_key).arrayBytes keys.length * 8) keys).foldl
            (fun d pos => setBit d dst.length pos)
            (dst ++ List.replicate
                ((BloomFilterPolicy.new Hash bits_per_key).arrayBytes keys.length) 0
              ++ [Byte.ofNat (BloomFilterPolicy.new Hash bits_per_key).k_]) ∧
      ∀ pos ∈ CreateFilter.positions (BloomFilterPolicy.new Hash bits_per_key)
          ((BloomFilterPolicy.new Hash bits_per_key).arrayBytes keys.length * 8) keys,
        pos / 8 < (BloomFilterPolicy.new Hash bits_per_key).arrayBytes keys.length) ∧
    (∀ (p : BloomFilterPolicy) (key : Slice) (filter : List Byte), 2 ≤ filter.length →
      0 < (filter.length - 1) * 8 ∧
      p.KeyMayMatch key filter
        = (if 30 < (filter.getD (filter.length - 1) 0).val then true
           else (probePositions ((filter.length - 1) * 8) (rotateDelta (BloomHash p.Hash key))
                  (filter.getD (filter.length - 1) 0).val (BloomHash p.Hash key)).all
                fun pos => decide (¬ (filter.getD (pos / 8) 0).val &&& (1 <<< (pos % 8)) = 0)) ∧
      ∀ pos ∈ probePositions ((filter.length - 1) * 8) (rotateDelta (BloomHash p.Hash key))
          (filter.getD (filter.length - 1) 0).val (BloomHash p.Hash key),
        pos / 8 ≤ filter.length - 2) := by
  constructor
  · intro Hash bits_per_key keys dst _ hb hn
    have hb2 : (BloomFilterPolicy.new Hash bits_per_key).bits_per_key_ < 2 ^ 31 := hb
    have hpos := arrayBytes_pos _ keys.length hn hb2
    refine ⟨by omega, CreateFilter_eq_foldl _ keys dst, ?_⟩
    intro pos hm
    obtain ⟨x, rfl⟩ := mem_positions _ _ _ _ hm
    have := Nat.mod_lt x
      (show 0 < (BloomFilterPolicy.new Hash bits_per_key).arrayBytes keys.length * 8 by omega)
    omega
  · intro p key filter hlen
    refine ⟨by omega, ?_, ?_⟩
    · simp only [BloomFilterPolicy.KeyMayMatch]
      rw [if_neg (by omega), KeyMayMatch_probes_eq_all]
    · intro pos hm
      obtain ⟨x, rfl⟩ := mem_probePositions _ _ _ _ _ hm
      have := Nat.mod_lt x (show 0 < (filter.length - 1) * 8 by omega)
      omega

/-- C20 at two keys with ten bits per key, appended to a one-byte buffer, and at
a query against an eight-byte bit array with six probes. -/
theorem bloom_arithmetic_guarded_witness :
    (∀ pos ∈ CreateFilter.positions (BloomFilterPolicy.new sampleHash 10)
        ((BloomFilterPolicy.new sampleHash 10).arrayBytes
          ([[1], [2, 3]] : List Slice).length * 8) [[1], [2, 3]],
      pos / 8 < (BloomFilterPolicy.new sampleHash 10).arrayBytes
        ([[1], [2, 3]] : List Slice).length) ∧
    (∀ pos ∈ probePositions ((([0, 0, 0, 0, 0, 0, 0, 0, 6] : List Byte).length - 1) * 8)
        (rotateDelta (BloomHash (BloomFilterPolicy.new sampleHash 10).Hash [1]))
        (([0, 0, 0, 0, 0, 0, 0, 0, 6] : List Byte).getD
          (([0, 0, 0, 0, 0, 0, 0, 0, 6] : List Byte).length - 1) 0).val
        (BloomHash (BloomFilterPolicy.new sampleHash 10).Hash [1]),
      pos / 8 ≤ ([0, 0, 0, 0, 0, 0, 0, 0, 6] : List Byte).length - 2) :=
  ⟨(bloom_arithmetic_guarded.1 sampleHash 10 [[1], [2, 3]] [9]
      (by decide) (by decide) (by decide)).2.2,
    (bloom_arithmetic_guarded.2 (BloomFilterPolicy.new sampleHash 10) [1]
      [0, 0, 0, 0, 0, 0, 0, 0, 6] (by decide)).2.2⟩


end LevelDB
